import Mathlib

/-!
# DTen chaincode (`dten-chaincode.go`)

A shallow embedding of the smart contract of
`LFS171x/fabric-material/chaincode/DTen/dten-chaincode.go` and of the parts of the
Go standard library and of the Fabric shim that it calls.

* Go `string` and `[]byte` values are byte sequences (`Bytes`); string literals of the source
  are written `str "..."`.
* The ledger behind `shim.ChaincodeStubInterface` is an association list kept in key order,
  together with the errors the host may return and a log of the calls made
  (`ChaincodeStub`). A handler takes the stub and returns its response and the stub after it.
* `json.Marshal` follows `encoding/json`: the struct encoder and `appendString` with HTML
  escaping, over `utf8.DecodeRuneInString`. `Unmarshal` (the decoder for the documents the
  contract stores) and `Valid` (the scanner) are the reading side of the same package.
* Output written with `fmt.Println` / `fmt.Printf` goes to the container log and is not
  part of the response or of the ledger; it is left out.
-/

namespace DTen

/-! ## Bytes, UTF-8 and keys -/

/-- A Go `string` or `[]byte`: a finite sequence of bytes (numbers below 256). -/
abbrev Bytes := List Nat

/-- The constant `utf8.RuneError` (U+FFFD). -/
def RuneError : Nat := 0xFFFD

/-- Go `utf8.AppendRune` / `utf8.EncodeRune`: the UTF-8 bytes of rune `r`; runes out of range
and surrogates are written as `RuneError`. -/
def EncodeRune (r : Nat) : Bytes :=
  if r ≤ 0x7F then [r]
  else if r ≤ 0x7FF then [0xC0 + r / 64, 0x80 + r % 64]
  else if 0x10FFFF < r ∨ (0xD800 ≤ r ∧ r ≤ 0xDFFF) then [0xEF, 0xBF, 0xBD]
  else if r ≤ 0xFFFF then [0xE0 + r / 4096, 0x80 + r / 64 % 64, 0x80 + r % 64]
  else [0xF0 + r / 262144, 0x80 + r / 4096 % 64, 0x80 + r / 64 % 64, 0x80 + r % 64]

/-- Go `utf8.DecodeRuneInString` / `utf8.DecodeRune`: the first rune of `s` and its width in
bytes; an invalid or truncated encoding gives `(RuneError, 1)`, the empty input
`(RuneError, 0)`. The branches are the rows of the tables `first` and `acceptRanges`. -/
def DecodeRune : Bytes → Nat × Nat
  | [] => (RuneError, 0)
  | s0 :: t =>
    if s0 < 0x80 then (s0, 1)
    else if s0 < 0xC2 then (RuneError, 1)
    else if s0 < 0xE0 then
      match t with
      | s1 :: _ =>
        if s1 < 0x80 ∨ 0xBF < s1 then (RuneError, 1)
        else (s0 % 32 * 64 + s1 % 64, 2)
      | [] => (RuneError, 1)
    else if s0 < 0xF0 then
      match t with
      | s1 :: s2 :: _ =>
        if s1 < (if s0 = 0xE0 then 0xA0 else 0x80) ∨ (if s0 = 0xED then 0x9F else 0xBF) < s1 then
          (RuneError, 1)
        else if s2 < 0x80 ∨ 0xBF < s2 then (RuneError, 1)
        else (s0 % 16 * 4096 + s1 % 64 * 64 + s2 % 64, 3)
      | _ => (RuneError, 1)
    else if s0 < 0xF5 then
      match t with
      | s1 :: s2 :: s3 :: _ =>
        if s1 < (if s0 = 0xF0 then 0x90 else 0x80) ∨ (if s0 = 0xF4 then 0x8F else 0xBF) < s1 then
          (RuneError, 1)
        else if s2 < 0x80 ∨ 0xBF < s2 then (RuneError, 1)
        else if s3 < 0x80 ∨ 0xBF < s3 then (RuneError, 1)
        else (s0 % 8 * 262144 + s1 % 64 * 4096 + s2 % 64 * 64 + s3 % 64, 4)
      | _ => (RuneError, 1)
    else (RuneError, 1)

/-- The UTF-8 encoding of a sequence of Unicode scalar values. -/
def utf8 (cs : List Char) : Bytes := cs.flatMap (fun c => EncodeRune c.toNat)

/-- The bytes of a string literal of the source. -/
def str (s : String) : Bytes := utf8 s.toList

/-- The loop of `utf8.ValidString`, over the runes that `DecodeRune` reads. -/
def ValidStringLoop : Nat → Bytes → Bool
  | 0, s => s.isEmpty
  | _, [] => true
  | fuel + 1, b :: rest =>
    if b < 0x80 then ValidStringLoop fuel rest
    else
      let (c, size) := DecodeRune (b :: rest)
      if c = RuneError ∧ size = 1 then false
      else ValidStringLoop fuel ((b :: rest).drop size)

/-- Go `utf8.ValidString`: whether `s` consists entirely of well-formed UTF-8 runes. -/
def ValidString (s : Bytes) : Bool := ValidStringLoop s.length s

/-- The loop of `coerceUTF8`, over the runes that `DecodeRune` reads. -/
def coerceLoop : Nat → Bytes → Bytes
  | 0, _ => []
  | _, [] => []
  | fuel + 1, b :: rest =>
    if b < 0x80 then b :: coerceLoop fuel rest
    else
      let (c, size) := DecodeRune (b :: rest)
      if c = RuneError ∧ size = 1 then [0xEF, 0xBF, 0xBD] ++ coerceLoop fuel rest
      else (b :: rest).take size ++ coerceLoop fuel ((b :: rest).drop size)

/-- The text that `encoding/json` keeps of a Go string (`appendString` on writing, `unquote`
on reading): well-formed runes are kept, every byte that starts no well-formed rune is
replaced by the three bytes of U+FFFD. -/
def coerceUTF8 (s : Bytes) : Bytes := coerceLoop s.length s

/-- Go `<` on strings: bytewise lexicographic order, the key order of the ledger. -/
def bytesLt : Bytes → Bytes → Bool
  | _, [] => false
  | [], _ :: _ => true
  | a :: as, b :: bs => if a < b then true else if b < a then false else bytesLt as bs

/-- Go `strconv.Itoa` on a non-negative number: the decimal digits, most significant first. -/
def digits : Nat → Nat → Bytes → Bytes
  | 0, _, acc => acc
  | fuel + 1, n, acc =>
    if n < 10 then (48 + n) :: acc else digits fuel (n / 10) ((48 + n % 10) :: acc)

/-- Go `strconv.Itoa`. -/
def Itoa (i : Int) : Bytes :=
  if i < 0 then 45 :: digits (i.natAbs + 1) i.natAbs [] else digits (i.natAbs + 1) i.natAbs []

/-! ## The ledger and the chaincode stub -/

/-- One key of the world state with its value. -/
abbrev KV := Bytes × Bytes

/-- The value the world state holds at `key`, if any. -/
def stateGet : List KV → Bytes → Option Bytes
  | [], _ => none
  | (k, v) :: rest, key => if k = key then some v else stateGet rest key

/-- The world state after writing `value` at `key`: the entry is replaced when the key is
present and inserted at its place in key order otherwise. -/
def statePut (key value : Bytes) : List KV → List KV
  | [] => [(key, value)]
  | (k, v) :: rest =>
    if bytesLt key k then (key, value) :: (k, v) :: rest
    else if key = k then (key, value) :: rest
    else (k, v) :: statePut key value rest

/-- The entries of the world state with `startKey ≤ key < endKey`, in the order of the world
state (the host convention of `GetStateByRange`: start inclusive, end exclusive). -/
def stateRange (startKey endKey : Bytes) (st : List KV) : List KV :=
  st.filter (fun kv => !bytesLt kv.1 startKey && bytesLt kv.1 endKey)

/-- A call made on the stub or on a range iterator. -/
inductive StubCall
  | GetState (key : Bytes)
  | PutState (key value : Bytes)
  | GetStateByRange (startKey endKey : Bytes)
  | HasNext
  | Next
  | Close
deriving DecidableEq, Repr

/-- The host side of `shim.ChaincodeStubInterface`: the world state, the error (if any) each
kind of call returns, and the calls made so far. `nextErr n` is the error of the `n`-th call
of `Next` on a range iterator (counted from 0). -/
structure ChaincodeStub where
  state : List KV
  getErr : Bytes → Option Bytes
  putErr : Bytes → Bytes → Option Bytes
  rangeErr : Option Bytes
  nextErr : Nat → Option Bytes
  calls : List StubCall

/-- The outcome `(value, err)` of `APIstub.GetState(key)`: the value is `nil` (`none`) when the
key is absent and when the call fails. -/
def ChaincodeStub.GetState (stub : ChaincodeStub) (key : Bytes) :
    (Option Bytes × Option Bytes) × ChaincodeStub :=
  let stub1 := { stub with calls := stub.calls ++ [StubCall.GetState key] }
  match stub.getErr key with
  | some e => ((none, some e), stub1)
  | none => ((stateGet stub.state key, none), stub1)

/-- The outcome `err` of `APIstub.PutState(key, value)`: the world state changes only when the
call does not fail. -/
def ChaincodeStub.PutState (stub : ChaincodeStub) (key value : Bytes) :
    Option Bytes × ChaincodeStub :=
  let stub1 := { stub with calls := stub.calls ++ [StubCall.PutState key value] }
  match stub.putErr key value with
  | some e => (some e, stub1)
  | none => (none, { stub1 with state := statePut key value stub.state })

/-- What the successive calls of `Next` on a range iterator return. -/
def iterItems (nextErr : Nat → Option Bytes) : Nat → List KV → List (Except Bytes KV)
  | _, [] => []
  | n, kv :: rest =>
    (match nextErr n with
     | some e => Except.error e
     | none => Except.ok kv) :: iterItems nextErr (n + 1) rest

/-- The outcome `(iterator, err)` of `APIstub.GetStateByRange(startKey, endKey)`; the iterator
is given by what its calls of `Next` will return. -/
def ChaincodeStub.GetStateByRange (stub : ChaincodeStub) (startKey endKey : Bytes) :
    Except Bytes (List (Except Bytes KV)) × ChaincodeStub :=
  let stub1 := { stub with calls := stub.calls ++ [StubCall.GetStateByRange startKey endKey] }
  match stub.rangeErr with
  | some e => (Except.error e, stub1)
  | none => (Except.ok (iterItems stub.nextErr 0 (stateRange startKey endKey stub.state)), stub1)

/-- The response `sc.Response` of a handler: `shim.Success(payload)` or `shim.Error(msg)`. -/
inductive Response
  | Success (payload : Option Bytes)
  | Error (message : Bytes)
deriving DecidableEq, Repr

/-! ## `encoding/json`: the encoder -/

/-- The table `hex` of `encoding/json`: the lower-case hexadecimal digit of `n < 16`. -/
def hex (n : Nat) : Nat := if n < 10 then 48 + n else 87 + n

/-- The table `htmlSafeSet` of `encoding/json`: the ASCII bytes written without escaping, all
of `0x20 .. 0x7F` but the double quote, the backslash, `&`, `<` and `>`. -/
def htmlSafeSet (b : Nat) : Bool :=
  decide (0x20 ≤ b) && decide (b < 0x80) &&
    !(b == 0x22 || b == 0x26 || b == 0x3C || b == 0x3E || b == 0x5C)

/-- What `appendString` writes for an ASCII byte outside `htmlSafeSet`: a two-byte escape
for the double quote, the backslash and the control characters that have one, and `\u00XX`
for the other control characters and for `&`, `<` and `>`. (Releases of Go before 1.22 write
`\u0008` and `\u000c` for backspace and form feed; every decoder reads both forms alike.) -/
def escapeByte (b : Nat) : Bytes :=
  if b = 0x5C ∨ b = 0x22 then [0x5C, b]
  else if b = 0x08 then [0x5C, 0x62]
  else if b = 0x0C then [0x5C, 0x66]
  else if b = 0x0A then [0x5C, 0x6E]
  else if b = 0x0D then [0x5C, 0x72]
  else if b = 0x09 then [0x5C, 0x74]
  else [0x5C, 0x75, 0x30, 0x30, hex (b / 16), hex (b % 16)]

/-- The loop of `appendString` of `encoding/json` (with `escapeHTML` set, as `json.Marshal`
does): safe ASCII bytes and well-formed multi-byte runes are copied, other ASCII bytes are
escaped, a byte that starts no well-formed rune is replaced by the escape of U+FFFD, and
U+2028 / U+2029 are escaped. Every round consumes at least one byte, so a fuel of the length
of the input is never used up. -/
def appendStringLoop : Nat → Bytes → Bytes
  | 0, _ => []
  | _, [] => []
  | fuel + 1, b :: rest =>
    if b < 0x80 then
      (if htmlSafeSet b then [b] else escapeByte b) ++ appendStringLoop fuel rest
    else
      let (c, size) := DecodeRune (b :: rest)
      if c = RuneError ∧ size = 1 then
        [0x5C, 0x75, 0x66, 0x66, 0x66, 0x64] ++ appendStringLoop fuel rest
      else if c = 0x2028 ∨ c = 0x2029 then
        [0x5C, 0x75, 0x32, 0x30, 0x32, hex (c % 16)] ++
          appendStringLoop fuel ((b :: rest).drop size)
      else
        (b :: rest).take size ++ appendStringLoop fuel ((b :: rest).drop size)

/-- Go `appendString(dst, src, true)` of `encoding/json`: `src` as a JSON string literal. -/
def appendString (src : Bytes) : Bytes :=
  0x22 :: (appendStringLoop src.length src ++ [0x22])

/-- The record `Tender` of the contract, with its four string fields in declaration order
(the field `Type` is written `Type_`, `Type` being a keyword here). -/
structure Tender where
  Type_ : Bytes
  Timestamp : Bytes
  Size : Bytes
  Lots : Bytes
deriving DecidableEq, Repr

/-- Go `json.Marshal` on a `Tender`: the struct encoder writes the fields in declaration order
under the names of their `json` tags; no field is omitted and the call cannot fail. -/
def Marshal (t : Tender) : Bytes :=
  [0x7B] ++ appendString (str "type") ++ [0x3A] ++ appendString t.Type_ ++
    [0x2C] ++ appendString (str "timestamp") ++ [0x3A] ++ appendString t.Timestamp ++
    [0x2C] ++ appendString (str "size") ++ [0x3A] ++ appendString t.Size ++
    [0x2C] ++ appendString (str "lots") ++ [0x3A] ++ appendString t.Lots ++ [0x7D]

/-! ## `encoding/json`: the decoder and the scanner -/

/-- The value of a hexadecimal digit, as read by `getu4` of `encoding/json`. -/
def hexValue (c : Nat) : Option Nat :=
  if 0x30 ≤ c ∧ c ≤ 0x39 then some (c - 0x30)
  else if 0x61 ≤ c ∧ c ≤ 0x66 then some (c - 0x61 + 10)
  else if 0x41 ≤ c ∧ c ≤ 0x46 then some (c - 0x41 + 10)
  else none

/-- Go `getu4` of `encoding/json`: the number written by the four hexadecimal digits of an
escape `\uXXXX` at the start of `s`, or `none` (the `-1` of the source). -/
def getu4 : Bytes → Option Nat
  | 0x5C :: 0x75 :: a :: b :: c :: d :: _ =>
    match hexValue a, hexValue b, hexValue c, hexValue d with
    | some a, some b, some c, some d => some (((a * 16 + b) * 16 + c) * 16 + d)
    | _, _, _, _ => none
  | _ => none

/-- Go `utf16.DecodeRune`: the rune of a surrogate pair, U+FFFD when the pair is not valid. -/
def utf16DecodeRune (r1 : Nat) (r2 : Option Nat) : Nat :=
  match r2 with
  | some r2 =>
    if 0xD800 ≤ r1 ∧ r1 < 0xDC00 ∧ 0xDC00 ≤ r2 ∧ r2 < 0xE000 then
      (r1 - 0xD800) * 1024 + (r2 - 0xDC00) + 0x10000
    else 0xFFFD
  | none => 0xFFFD

/-- Put `pre` in front of the text of a decoded string. -/
def consText (pre : Bytes) : Option (Bytes × Bytes) → Option (Bytes × Bytes)
  | some (text, rest) => some (pre ++ text, rest)
  | none => none

/-- A JSON string literal as `encoding/json` decodes it (the scanner states `stateInString`,
`stateInStringEsc`, `stateInStringEscU` and `unquoteBytes`), read from just after the opening
quote: the decoded text and the input after the closing quote, or `none` when the literal is
not well formed. Escapes are resolved, raw text is coerced to well-formed UTF-8. -/
def unquoteLoop : Nat → Bytes → Option (Bytes × Bytes)
  | 0, _ => none
  | _, [] => none
  | fuel + 1, c :: rest =>
    if c = 0x22 then some ([], rest)
    else if c = 0x5C then
      match rest with
      | [] => none
      | e :: rest1 =>
        if e = 0x22 ∨ e = 0x5C ∨ e = 0x2F then consText [e] (unquoteLoop fuel rest1)
        else if e = 0x62 then consText [0x08] (unquoteLoop fuel rest1)
        else if e = 0x66 then consText [0x0C] (unquoteLoop fuel rest1)
        else if e = 0x6E then consText [0x0A] (unquoteLoop fuel rest1)
        else if e = 0x72 then consText [0x0D] (unquoteLoop fuel rest1)
        else if e = 0x74 then consText [0x09] (unquoteLoop fuel rest1)
        else if e = 0x75 then
          match getu4 (c :: rest) with
          | none => none
          | some rr =>
            let rest6 := rest1.drop 4
            if 0xD800 ≤ rr ∧ rr < 0xE000 then
              let dec := utf16DecodeRune rr (getu4 rest6)
              if dec ≠ 0xFFFD then consText (EncodeRune dec) (unquoteLoop fuel (rest6.drop 6))
              else consText (EncodeRune 0xFFFD) (unquoteLoop fuel rest6)
            else consText (EncodeRune rr) (unquoteLoop fuel rest6)
        else none
    else if c < 0x20 then none
    else if c < 0x80 then consText [c] (unquoteLoop fuel rest)
    else
      let (rr, size) := DecodeRune (c :: rest)
      consText (EncodeRune rr) (unquoteLoop fuel ((c :: rest).drop size))

/-- A JSON string literal read from just after its opening quote. -/
def unquote (s : Bytes) : Option (Bytes × Bytes) := unquoteLoop s.length s

/-- Go `isSpace` of `encoding/json`. -/
def isSpace (c : Nat) : Bool := c == 0x20 || c == 0x09 || c == 0x0D || c == 0x0A

/-- The input without its leading JSON white space. -/
def skipSpace : Bytes → Bytes
  | [] => []
  | c :: rest => if isSpace c then skipSpace rest else c :: rest

/-- The field of a `Tender` that `Unmarshal` stores the member `key` in. Only the exact tag
names are accepted here; `encoding/json` would also match a name that differs in case. -/
def setField (t : Tender) (key value : Bytes) : Option Tender :=
  if key = str "type" then some { t with Type_ := value }
  else if key = str "timestamp" then some { t with Timestamp := value }
  else if key = str "size" then some { t with Size := value }
  else if key = str "lots" then some { t with Lots := value }
  else none

/-- The members of a JSON object, read from the opening quote of a member name up to the end
of the input, stored into `t`. -/
def unmarshalMembers : Nat → Bytes → Tender → Option Tender
  | 0, _, _ => none
  | _, [], _ => none
  | fuel + 1, c :: rest, t =>
    if c ≠ 0x22 then none
    else
      match unquote rest with
      | none => none
      | some (key, rest) =>
        match skipSpace rest with
        | [] => none
        | c :: rest =>
          if c ≠ 0x3A then none
          else
            match skipSpace rest with
            | [] => none
            | c :: rest =>
              if c ≠ 0x22 then none
              else
                match unquote rest with
                | none => none
                | some (value, rest) =>
                  match setField t key value with
                  | none => none
                  | some t =>
                    match skipSpace rest with
                    | [] => none
                    | c :: rest =>
                      if c = 0x2C then unmarshalMembers fuel (skipSpace rest) t
                      else if c = 0x7D then (if skipSpace rest = [] then some t else none)
                      else none

/-- Go `json.Unmarshal(data, &tender)` on a zero `Tender`, for the documents the contract
stores: a JSON object whose members are named by the four tags, in any order, and have string
values. The result is the decoded record; `none` stands for an error of `Unmarshal` and for
every document outside this fragment (another member name, a value that is not a string). -/
def Unmarshal (data : Bytes) : Option Tender :=
  match skipSpace data with
  | [] => none
  | c :: rest =>
    if c ≠ 0x7B then none
    else
      match skipSpace rest with
      | [] => none
      | c :: rest1 =>
        if c = 0x7D then
          (if skipSpace rest1 = [] then some { Type_ := [], Timestamp := [], Size := [], Lots := [] }
           else none)
        else
          unmarshalMembers data.length (c :: rest1)
            { Type_ := [], Timestamp := [], Size := [], Lots := [] }

/-- The states of the scanner of `encoding/json` (the `step` functions of `scanner.go`); the
states of the literals `true`, `false` and `null` are given by the bytes still expected. -/
inductive ScanState
  | beginValue
  | beginValueOrEmpty
  | beginStringOrEmpty
  | beginString
  | endValue
  | endTop
  | inString
  | inStringEsc
  | inStringEscU (seen : Nat)
  | neg
  | zero
  | one
  | dot
  | dot0
  | exp
  | expSign
  | exp0
  | literal (expected : Bytes)
  | error
deriving DecidableEq, Repr

/-- The entries of the stack `parseState` of the scanner. -/
inductive ParseState
  | objectKey
  | objectValue
  | arrayValue
deriving DecidableEq, Repr

/-- The step `stateEndValue` of the scanner: the byte after a complete value. -/
def stateEndValue (stack : List ParseState) (c : Nat) : ScanState × List ParseState :=
  match stack with
  | [] => (if isSpace c then ScanState.endTop else ScanState.error, [])
  | ps :: below =>
    if isSpace c then (ScanState.endValue, stack)
    else
      match ps with
      | ParseState.objectKey =>
        if c = 0x3A then (ScanState.beginValue, ParseState.objectValue :: below)
        else (ScanState.error, stack)
      | ParseState.objectValue =>
        if c = 0x2C then (ScanState.beginString, ParseState.objectKey :: below)
        else if c = 0x7D then
          (if below = [] then ScanState.endTop else ScanState.endValue, below)
        else (ScanState.error, stack)
      | ParseState.arrayValue =>
        if c = 0x2C then (ScanState.beginValue, stack)
        else if c = 0x5D then
          (if below = [] then ScanState.endTop else ScanState.endValue, below)
        else (ScanState.error, stack)

/-- The step `stateBeginValue` of the scanner: the first byte of a value. -/
def stateBeginValue (stack : List ParseState) (c : Nat) : ScanState × List ParseState :=
  if isSpace c then (ScanState.beginValue, stack)
  else if c = 0x7B then (ScanState.beginStringOrEmpty, ParseState.objectKey :: stack)
  else if c = 0x5B then (ScanState.beginValueOrEmpty, ParseState.arrayValue :: stack)
  else if c = 0x22 then (ScanState.inString, stack)
  else if c = 0x2D then (ScanState.neg, stack)
  else if c = 0x30 then (ScanState.zero, stack)
  else if c = 0x74 then (ScanState.literal [0x72, 0x75, 0x65], stack)
  else if c = 0x66 then (ScanState.literal [0x61, 0x6C, 0x73, 0x65], stack)
  else if c = 0x6E then (ScanState.literal [0x75, 0x6C, 0x6C], stack)
  else if 0x31 ≤ c ∧ c ≤ 0x39 then (ScanState.one, stack)
  else (ScanState.error, stack)

/-- The step `state0` of the scanner: after the integer part of a number. -/
def state0 (stack : List ParseState) (c : Nat) : ScanState × List ParseState :=
  if c = 0x2E then (ScanState.dot, stack)
  else if c = 0x65 ∨ c = 0x45 then (ScanState.exp, stack)
  else stateEndValue stack c

/-- One step of the scanner of `encoding/json` on the byte `c`. The limit on the nesting
depth (10000) is not modelled. -/
def scanStep (st : ScanState × List ParseState) (c : Nat) : ScanState × List ParseState :=
  let stack := st.2
  let isDigit : Bool := decide (0x30 ≤ c) && decide (c ≤ 0x39)
  match st.1 with
  | ScanState.beginValue => stateBeginValue stack c
  | ScanState.beginValueOrEmpty =>
    if isSpace c then (ScanState.beginValueOrEmpty, stack)
    else if c = 0x5D then stateEndValue stack c
    else stateBeginValue stack c
  | ScanState.beginStringOrEmpty =>
    if isSpace c then (ScanState.beginStringOrEmpty, stack)
    else if c = 0x7D then stateEndValue (ParseState.objectValue :: stack.tail) c
    else if c = 0x22 then (ScanState.inString, stack)
    else (ScanState.error, stack)
  | ScanState.beginString =>
    if isSpace c then (ScanState.beginString, stack)
    else if c = 0x22 then (ScanState.inString, stack)
    else (ScanState.error, stack)
  | ScanState.endValue => stateEndValue stack c
  | ScanState.endTop => (if isSpace c then ScanState.endTop else ScanState.error, stack)
  | ScanState.inString =>
    if c = 0x22 then (ScanState.endValue, stack)
    else if c = 0x5C then (ScanState.inStringEsc, stack)
    else if c < 0x20 then (ScanState.error, stack)
    else (ScanState.inString, stack)
  | ScanState.inStringEsc =>
    if c = 0x62 ∨ c = 0x66 ∨ c = 0x6E ∨ c = 0x72 ∨ c = 0x74 ∨ c = 0x5C ∨ c = 0x2F ∨ c = 0x22 then
      (ScanState.inString, stack)
    else if c = 0x75 then (ScanState.inStringEscU 0, stack)
    else (ScanState.error, stack)
  | ScanState.inStringEscU seen =>
    if (hexValue c).isSome then
      (if seen < 3 then ScanState.inStringEscU (seen + 1) else ScanState.inString, stack)
    else (ScanState.error, stack)
  | ScanState.neg =>
    if c = 0x30 then (ScanState.zero, stack)
    else if 0x31 ≤ c ∧ c ≤ 0x39 then (ScanState.one, stack)
    else (ScanState.error, stack)
  | ScanState.one => if isDigit then (ScanState.one, stack) else state0 stack c
  | ScanState.zero => state0 stack c
  | ScanState.dot => if isDigit then (ScanState.dot0, stack) else (ScanState.error, stack)
  | ScanState.dot0 =>
    if isDigit then (ScanState.dot0, stack)
    else if c = 0x65 ∨ c = 0x45 then (ScanState.exp, stack)
    else stateEndValue stack c
  | ScanState.exp =>
    if c = 0x2B ∨ c = 0x2D then (ScanState.expSign, stack)
    else if isDigit then (ScanState.exp0, stack)
    else (ScanState.error, stack)
  | ScanState.expSign => if isDigit then (ScanState.exp0, stack) else (ScanState.error, stack)
  | ScanState.exp0 => if isDigit then (ScanState.exp0, stack) else stateEndValue stack c
  | ScanState.literal expected =>
    match expected with
    | [] => (ScanState.error, stack)
    | e :: more =>
      if c = e then (if more = [] then ScanState.endValue else ScanState.literal more, stack)
      else (ScanState.error, stack)
  | ScanState.error => (ScanState.error, stack)

/-- Go `json.Valid`: whether `data` is one well-formed JSON value (RFC 8259), white space
around it allowed. As in `scanner.eof`, the end of the input is fed to the scanner as a
space, which ends a number. -/
def Valid (data : Bytes) : Bool :=
  let st := data.foldl scanStep (ScanState.beginValue, [])
  match st.1 with
  | ScanState.error => false
  | ScanState.endTop => true
  | _ => decide ((scanStep st 0x20).1 = ScanState.endTop)

/-! ## The smart contract -/

/-- The handler `queryTender`. -/
def queryTender (stub : ChaincodeStub) (args : List Bytes) : Response × ChaincodeStub :=
  if args.length ≠ 1 then
    (Response.Error (str "Incorrect number of arguments. Expecting 1"), stub)
  else
    let (r, stub) := stub.GetState (args.getD 0 [])
    match r.1 with
    | none => (Response.Error (str "Could not locate tender"), stub)
    | some tenderAsBytes => (Response.Success (some tenderAsBytes), stub)

/-- The ten literal records of `initLedger`. -/
def seedTenders : List Tender :=
  [ { Type_ := str "Service", Size := str "10", Timestamp := str "1504054225", Lots := str "100" },
    { Type_ := str "Supply", Size := str "10", Timestamp := str "1504057825", Lots := str "100" },
    { Type_ := str "Work", Size := str "10", Timestamp := str "1493517025", Lots := str "100" },
    { Type_ := str "Building", Size := str "10", Timestamp := str "1496105425", Lots := str "100" },
    { Type_ := str "Service", Size := str "10", Timestamp := str "1493512301", Lots := str "100" },
    { Type_ := str "Supply", Size := str "10", Timestamp := str "1494117101", Lots := str "100" },
    { Type_ := str "Work", Size := str "10", Timestamp := str "1496104301", Lots := str "100" },
    { Type_ := str "Service", Size := str "10", Timestamp := str "1485066691", Lots := str "100" },
    { Type_ := str "Building", Size := str "10", Timestamp := str "1485153091", Lots := str "100" },
    { Type_ := str "Service", Size := str "10", Timestamp := str "1487745091", Lots := str "100" } ]

/-- The loop of `initLedger` from index `i` over the records still to write: each record is
marshalled and put at key `Itoa(i+1)`; the error of `PutState` is dropped. -/
def initLedgerLoop : List Tender → Nat → ChaincodeStub → ChaincodeStub
  | [], _, stub => stub
  | t :: rest, i, stub =>
    let tenderAsBytes := Marshal t
    let (_, stub) := stub.PutState (Itoa (Int.ofNat i + 1)) tenderAsBytes
    initLedgerLoop rest (i + 1) stub

/-- The handler `initLedger`. -/
def initLedger (stub : ChaincodeStub) : Response × ChaincodeStub :=
  (Response.Success none, initLedgerLoop seedTenders 0 stub)

/-- The handler `recordTender`. -/
def recordTender (stub : ChaincodeStub) (args : List Bytes) : Response × ChaincodeStub :=
  if args.length ≠ 5 then
    (Response.Error (str "Incorrect number of arguments. Expecting 5"), stub)
  else
    let tender : Tender :=
      { Type_ := args.getD 1 [], Size := args.getD 2 [], Timestamp := args.getD 3 [],
        Lots := args.getD 4 [] }
    let tenderAsBytes := Marshal tender
    let (err, stub) := stub.PutState (args.getD 0 []) tenderAsBytes
    match err with
    | some _ => (Response.Error (str "Failed to record Tender: " ++ args.getD 0 []), stub)
    | none => (Response.Success none, stub)

/-- The loop of `queryAllTenders` over what the iterator still returns: `buffer` and
`bArrayMemberAlreadyWritten` are the variables of the source, `calls` the log of the stub.
The result is the error of a failed `Next`, or the buffer when `HasNext` is false. -/
def queryAllTendersLoop :
    List (Except Bytes KV) → Bytes → Bool → List StubCall → Except Bytes Bytes × List StubCall
  | [], buffer, _, calls => (Except.ok buffer, calls ++ [StubCall.HasNext])
  | Except.error e :: _, _, _, calls =>
    (Except.error e, calls ++ [StubCall.HasNext, StubCall.Next])
  | Except.ok queryResponse :: rest, buffer, bArrayMemberAlreadyWritten, calls =>
    let buffer := if bArrayMemberAlreadyWritten = true then buffer ++ str "," else buffer
    let buffer := buffer ++ str "\x7b\"Key\":"
    let buffer := buffer ++ str "\""
    let buffer := buffer ++ queryResponse.1
    let buffer := buffer ++ str "\""
    let buffer := buffer ++ str ", \"Record\":"
    let buffer := buffer ++ queryResponse.2
    let buffer := buffer ++ str "\x7d"
    queryAllTendersLoop rest buffer true (calls ++ [StubCall.HasNext, StubCall.Next])

/-- The handler `queryAllTenders`; the deferred `Close` runs on every path on which the
iterator was opened. -/
def queryAllTenders (stub : ChaincodeStub) : Response × ChaincodeStub :=
  let startKey := str "0"
  let endKey := str "999"
  let (r, stub) := stub.GetStateByRange startKey endKey
  match r with
  | Except.error e => (Response.Error e, stub)
  | Except.ok resultsIterator =>
    let buffer := str "["
    match queryAllTendersLoop resultsIterator buffer false stub.calls with
    | (Except.error e, calls) =>
      (Response.Error e, { stub with calls := calls ++ [StubCall.Close] })
    | (Except.ok buffer, calls) =>
      let buffer := buffer ++ str "]"
      (Response.Success (some buffer), { stub with calls := calls ++ [StubCall.Close] })

/-- The method `Init`. -/
def Init (stub : ChaincodeStub) : Response × ChaincodeStub :=
  (Response.Success none, stub)

/-- The method `Invoke`, with the function name and the arguments that
`GetFunctionAndParameters` returns. -/
def Invoke (stub : ChaincodeStub) (function : Bytes) (args : List Bytes) :
    Response × ChaincodeStub :=
  if function = str "queryTender" then queryTender stub args
  else if function = str "initLedger" then initLedger stub
  else if function = str "recordTender" then recordTender stub args
  else if function = str "queryAllTenders" then queryAllTenders stub
  else (Response.Error (str "Invalid Smart Contract function name."), stub)

/-- A stub over the empty world state whose calls never fail. -/
def emptyStub : ChaincodeStub :=
  { state := [], getErr := fun _ => none, putErr := fun _ _ => none, rangeErr := none,
    nextErr := fun _ => none, calls := [] }

/-! ## Definitions used to state and to prove the properties -/

/-- Unicode scalar values: the runes below U+110000 that are not surrogates. -/
def ValidScalar (n : Nat) : Prop := n < 0xD800 ∨ (0xDFFF < n ∧ n < 0x110000)

/-- What `appendString` writes for one scalar value of its input. -/
def quoteRune (n : Nat) : Bytes :=
  if n < 0x80 then (if htmlSafeSet n then [n] else escapeByte n)
  else if n = 0x2028 ∨ n = 0x2029 then [0x5C, 0x75, 0x32, 0x30, 0x32, hex (n % 16)]
  else EncodeRune n

/-- A world state in key order: the keys increase strictly along the list. -/
def KeysSorted (st : List KV) : Prop :=
  (st.map Prod.fst).Pairwise (fun a b => bytesLt a b = true)

/-- One element of the array `queryAllTenders` returns: the object with the members `Key`
and `Record` of one key of the ledger and its value. -/
def entryText (kv : KV) : Bytes :=
  str "\x7b\"Key\":\"" ++ kv.1 ++ str "\", \"Record\":" ++ kv.2 ++ str "\x7d"

/-- The elements for a sequence of entries, separated by commas. -/
def entriesText : List KV → Bytes
  | [] => []
  | kv :: rest => entryText kv ++ rest.flatMap (fun e => str "," ++ entryText e)

/-- The array text for a sequence of entries: the elements in order, separated by commas,
between brackets. -/
def arrayText (kvs : List KV) : Bytes := str "[" ++ entriesText kvs ++ str "]"

/-- A value of the ledger that is the encoding of some `Tender`: the JSON object with the
four members `type`, `timestamp`, `size` and `lots`, each a string. -/
def IsTenderEncoding (v : Bytes) : Prop := ∃ t : Tender, v = Marshal t

/-- The keys `initLedger` writes, in the order of the loop. -/
def seedKeys : List Bytes :=
  [str "1", str "2", str "3", str "4", str "5", str "6", str "7", str "8", str "9", str "10"]

/-- The pairs `(key, value)` the loop of `initLedger` puts, from index `i`. -/
def seedPuts : List Tender → Nat → List KV
  | [], _ => []
  | t :: rest, i => (Itoa (Int.ofNat i + 1), Marshal t) :: seedPuts rest (i + 1)

/-- The world state after a sequence of successful writes. -/
def putAll (st : List KV) (ps : List KV) : List KV :=
  ps.foldl (fun s p => statePut p.1 p.2 s) st

/-- The payload of `queryAllTenders` on a freshly seeded ledger. -/
def seededScan : Bytes :=
  str ("[\x7b\"Key\":\"1\", \"Record\":\x7b\"type\":\"Service\",\"timestamp\":\"1504054225\",\"size\":\"10\",\"lots\":\"100\"\x7d\x7d," ++
    "\x7b\"Key\":\"10\", \"Record\":\x7b\"type\":\"Service\",\"timestamp\":\"1487745091\",\"size\":\"10\",\"lots\":\"100\"\x7d\x7d," ++
    "\x7b\"Key\":\"2\", \"Record\":\x7b\"type\":\"Supply\",\"timestamp\":\"1504057825\",\"size\":\"10\",\"lots\":\"100\"\x7d\x7d," ++
    "\x7b\"Key\":\"3\", \"Record\":\x7b\"type\":\"Work\",\"timestamp\":\"1493517025\",\"size\":\"10\",\"lots\":\"100\"\x7d\x7d," ++
    "\x7b\"Key\":\"4\", \"Record\":\x7b\"type\":\"Building\",\"timestamp\":\"1496105425\",\"size\":\"10\",\"lots\":\"100\"\x7d\x7d," ++
    "\x7b\"Key\":\"5\", \"Record\":\x7b\"type\":\"Service\",\"timestamp\":\"1493512301\",\"size\":\"10\",\"lots\":\"100\"\x7d\x7d," ++
    "\x7b\"Key\":\"6\", \"Record\":\x7b\"type\":\"Supply\",\"timestamp\":\"1494117101\",\"size\":\"10\",\"lots\":\"100\"\x7d\x7d," ++
    "\x7b\"Key\":\"7\", \"Record\":\x7b\"type\":\"Work\",\"timestamp\":\"1496104301\",\"size\":\"10\",\"lots\":\"100\"\x7d\x7d," ++
    "\x7b\"Key\":\"8\", \"Record\":\x7b\"type\":\"Service\",\"timestamp\":\"1485066691\",\"size\":\"10\",\"lots\":\"100\"\x7d\x7d," ++
    "\x7b\"Key\":\"9\", \"Record\":\x7b\"type\":\"Building\",\"timestamp\":\"1485153091\",\"size\":\"10\",\"lots\":\"100\"\x7d\x7d]")

/-- The entries of a freshly seeded ledger in key order: the ten seeded pairs, the key `10`
between `1` and `2`. -/
def seededEntries : List (Bytes × Tender) :=
  match List.zip seedKeys seedTenders with
  | [e1, e2, e3, e4, e5, e6, e7, e8, e9, e10] => [e1, e10, e2, e3, e4, e5, e6, e7, e8, e9]
  | _ => []

/-- A stub over the empty world state whose every `PutState` fails. -/
def failingStub : ChaincodeStub :=
  { state := [], getErr := fun _ => none, putErr := fun _ _ => some (str "ledger unavailable"),
    rangeErr := none, nextErr := fun _ => none, calls := [] }

/-! # Lemmas -/

/-! ## UTF-8 -/

theorem encodeRune_ne_nil (n : Nat) : EncodeRune n ≠ [] := by
  unfold EncodeRune
  split_ifs <;> simp

theorem encodeRune_ascii {n : Nat} (h : n < 0x80) : EncodeRune n = [n] := by
  unfold EncodeRune
  rw [if_pos (by omega)]

/-- Decoding the encoding of a scalar value that is not ASCII gives the value back, with the
width of the encoding. -/
theorem decodeRune_encodeRune {n : Nat} (hv : ValidScalar n) (h : 0x80 ≤ n) (rest : Bytes) :
    DecodeRune (EncodeRune n ++ rest) = (n, (EncodeRune n).length) := by
  unfold ValidScalar at hv
  unfold EncodeRune
  split_ifs with h1 h2 h3 h4
  · omega
  · simp only [List.cons_append, List.nil_append, DecodeRune, List.length_cons, List.length_nil]
    rw [if_neg (by omega), if_neg (by omega), if_pos (by omega), if_neg (by omega)]
    simp only [Prod.mk.injEq, and_true]
    omega
  · omega
  · simp only [List.cons_append, List.nil_append, DecodeRune, List.length_cons, List.length_nil]
    rw [if_neg (by omega), if_neg (by omega), if_neg (by omega), if_pos (by omega)]
    rw [if_neg (by split_ifs <;> omega), if_neg (by omega)]
    simp only [Prod.mk.injEq, and_true]
    omega
  · simp only [List.cons_append, List.nil_append, DecodeRune, List.length_cons, List.length_nil]
    rw [if_neg (by omega), if_neg (by omega), if_neg (by omega), if_neg (by omega),
      if_pos (by omega)]
    rw [if_neg (by split_ifs <;> omega), if_neg (by omega), if_neg (by omega)]
    simp only [Prod.mk.injEq, and_true]
    omega

theorem encodeRune_head {n : Nat} (h : 0x80 ≤ n) :
    ∃ b bs, EncodeRune n = b :: bs ∧ 0x80 ≤ b ∧ 1 ≤ bs.length := by
  unfold EncodeRune
  split_ifs with h1 h2 h3 h4
  · omega
  · exact ⟨_, _, rfl, by omega, by simp⟩
  · exact ⟨_, _, rfl, by omega, by simp⟩
  · exact ⟨_, _, rfl, by omega, by simp⟩
  · exact ⟨_, _, rfl, by omega, by simp⟩

theorem unquoteLoop_cons (fuel c : Nat) (rest : Bytes) :
    unquoteLoop (fuel + 1) (c :: rest) =
    if c = 0x22 then some ([], rest)
    else if c = 0x5C then
      match rest with
      | [] => none
      | e :: rest1 =>
        if e = 0x22 ∨ e = 0x5C ∨ e = 0x2F then consText [e] (unquoteLoop fuel rest1)
        else if e = 0x62 then consText [0x08] (unquoteLoop fuel rest1)
        else if e = 0x66 then consText [0x0C] (unquoteLoop fuel rest1)
        else if e = 0x6E then consText [0x0A] (unquoteLoop fuel rest1)
        else if e = 0x72 then consText [0x0D] (unquoteLoop fuel rest1)
        else if e = 0x74 then consText [0x09] (unquoteLoop fuel rest1)
        else if e = 0x75 then
          match getu4 (c :: rest) with
          | none => none
          | some rr =>
            let rest6 := rest1.drop 4
            if 0xD800 ≤ rr ∧ rr < 0xE000 then
              let dec := utf16DecodeRune rr (getu4 rest6)
              if dec ≠ 0xFFFD then consText (EncodeRune dec) (unquoteLoop fuel (rest6.drop 6))
              else consText (EncodeRune 0xFFFD) (unquoteLoop fuel rest6)
            else consText (EncodeRune rr) (unquoteLoop fuel rest6)
        else none
    else if c < 0x20 then none
    else if c < 0x80 then consText [c] (unquoteLoop fuel rest)
    else
      let (rr, size) := DecodeRune (c :: rest)
      consText (EncodeRune rr) (unquoteLoop fuel ((c :: rest).drop size)) := by
  rfl

theorem getu4_cons (a b c d : Nat) (rest : Bytes) : getu4 (0x5C :: 0x75 :: a :: b :: c :: d :: rest) =
    match hexValue a, hexValue b, hexValue c, hexValue d with
    | some a, some b, some c, some d => some (((a * 16 + b) * 16 + c) * 16 + d)
    | _, _, _, _ => none := by
  rfl

theorem appendStringLoop_cons (fuel b : Nat) (rest : Bytes) :
    appendStringLoop (fuel + 1) (b :: rest) =
    if b < 0x80 then
      (if htmlSafeSet b then [b] else escapeByte b) ++ appendStringLoop fuel rest
    else
      let (c, size) := DecodeRune (b :: rest)
      if c = RuneError ∧ size = 1 then
        [0x5C, 0x75, 0x66, 0x66, 0x66, 0x64] ++ appendStringLoop fuel rest
      else if c = 0x2028 ∨ c = 0x2029 then
        [0x5C, 0x75, 0x32, 0x30, 0x32, hex (c % 16)] ++
          appendStringLoop fuel ((b :: rest).drop size)
      else
        (b :: rest).take size ++ appendStringLoop fuel ((b :: rest).drop size) := by
  rfl

theorem quoteRune_ne_nil (n : Nat) : quoteRune n ≠ [] := by
  unfold quoteRune escapeByte
  split_ifs <;> simp [encodeRune_ne_nil]

theorem appendStringLoop_encodeRune {n : Nat} (hv : ValidScalar n) (fuel : Nat) (rest : Bytes) :
    appendStringLoop (fuel + 1) (EncodeRune n ++ rest) = quoteRune n ++ appendStringLoop fuel rest := by
  by_cases h : n < 0x80
  · rw [encodeRune_ascii h]
    show appendStringLoop (fuel + 1) (n :: rest) = _
    rw [appendStringLoop_cons, if_pos h, quoteRune, if_pos h]
  · obtain ⟨b, bs, hb, hb80, hlen⟩ := encodeRune_head (n := n) (by omega)
    have hdec := decodeRune_encodeRune hv (by omega) rest
    have htake : (EncodeRune n ++ rest).take (EncodeRune n).length = EncodeRune n := by simp
    have hdrop : (EncodeRune n ++ rest).drop (EncodeRune n).length = rest := by simp
    have hlen2 : (EncodeRune n).length ≠ 1 := by rw [hb]; simp only [List.length_cons]; omega
    rw [hb] at hdec htake hdrop hlen2 ⊢
    rw [List.cons_append] at hdec htake hdrop ⊢
    rw [appendStringLoop_cons, if_neg (show ¬ b < 0x80 by omega), hdec, quoteRune, if_neg h]
    simp only []
    rw [if_neg (fun hh => hlen2 hh.2)]
    split_ifs with h2
    · rw [hdrop]
    · rw [htake, hdrop, hb]

theorem hexValue_hex : ∀ d, d < 16 → hexValue (hex d) = some d := by decide

theorem safe_cases {n : Nat} (h : htmlSafeSet n = true) :
    n ≠ 0x22 ∧ n ≠ 0x5C ∧ ¬ n < 0x20 ∧ n < 0x80 := by
  simp [htmlSafeSet] at h
  omega

theorem consText_some (pre text rest : Bytes) :
    consText pre (some (text, rest)) = some (pre ++ text, rest) := rfl

theorem unquoteLoop_quoteRune {n : Nat} (hv : ValidScalar n) (fuel : Nat) (more : Bytes) :
    unquoteLoop (fuel + 1) (quoteRune n ++ more) = consText (EncodeRune n) (unquoteLoop fuel more) := by
  unfold quoteRune
  by_cases h : n < 0x80
  · rw [if_pos h, encodeRune_ascii h]
    by_cases hs : htmlSafeSet n = true
    · obtain ⟨h1, h2, h3, h4⟩ := safe_cases hs
      rw [if_pos hs]
      show unquoteLoop (fuel + 1) (n :: more) = _
      rw [unquoteLoop_cons, if_neg h1, if_neg h2, if_neg h3, if_pos h4]
    · rw [if_neg hs]
      unfold escapeByte
      by_cases hq : n = 0x5C ∨ n = 0x22
      · rw [if_pos hq]
        rcases hq with rfl | rfl <;>
          (rw [List.cons_append, unquoteLoop_cons]; simp)
      · rw [if_neg hq]
        by_cases h8 : n = 0x08
        · subst h8; rw [if_pos rfl, List.cons_append, unquoteLoop_cons]; simp
        by_cases hC : n = 0x0C
        · subst hC; rw [if_neg (by decide), if_pos rfl, List.cons_append, unquoteLoop_cons]; simp
        by_cases hA : n = 0x0A
        · subst hA
          rw [if_neg (by decide), if_neg (by decide), if_pos rfl, List.cons_append,
            unquoteLoop_cons]
          simp
        by_cases hD : n = 0x0D
        · subst hD
          rw [if_neg (by decide), if_neg (by decide), if_neg (by decide), if_pos rfl,
            List.cons_append, unquoteLoop_cons]
          simp
        by_cases h9 : n = 0x09
        · subst h9
          rw [if_neg (by decide), if_neg (by decide), if_neg (by decide), if_neg (by decide),
            if_pos rfl, List.cons_append, unquoteLoop_cons]
          simp
        rw [if_neg h8, if_neg hC, if_neg hA, if_neg hD, if_neg h9]
        have e1 := hexValue_hex (n / 16) (by omega)
        have e2 := hexValue_hex (n % 16) (by omega)
        have e0 : hexValue 0x30 = some 0 := by decide
        have hn : ((0 * 16 + 0) * 16 + n / 16) * 16 + n % 16 = n := by omega
        show unquoteLoop (fuel + 1) (0x5C :: 0x75 :: 0x30 :: 0x30 :: hex (n / 16) :: hex (n % 16) :: more) = _
        rw [unquoteLoop_cons, if_neg (by decide), if_pos rfl]
        simp only []
        rw [if_neg (by decide), if_neg (by decide), if_neg (by decide), if_neg (by decide),
          if_neg (by decide), if_neg (by decide), if_pos trivial, getu4_cons, e0, e1, e2]
        simp only [hn]
        rw [if_neg (by omega), encodeRune_ascii h]
        rfl
  · rw [if_neg h]
    split_ifs with h2
    · rcases h2 with rfl | rfl
      · rw [List.cons_append, unquoteLoop_cons]
        simp [getu4_cons, hexValue, hex]
      · rw [List.cons_append, unquoteLoop_cons]
        simp [getu4_cons, hexValue, hex]
    · obtain ⟨b, bs, hb, hb80, hlen⟩ := encodeRune_head (n := n) (by omega)
      have hdec := decodeRune_encodeRune hv (by omega) more
      have hdrop : (EncodeRune n ++ more).drop (EncodeRune n).length = more := by simp
      rw [hb] at hdec hdrop ⊢
      rw [List.cons_append] at hdec hdrop ⊢
      rw [unquoteLoop_cons, if_neg (show ¬ b = 0x22 by omega), if_neg (show ¬ b = 0x5C by omega),
        if_neg (show ¬ b < 0x20 by omega), if_neg (show ¬ b < 0x80 by omega), hdec]
      simp only []
      rw [hdrop, hb]

theorem encodeRune_two {c : Nat} (h1 : 0x80 ≤ c) (h2 : c ≤ 0x7FF) :
    EncodeRune c = [0xC0 + c / 64, 0x80 + c % 64] := by
  rw [EncodeRune, if_neg (by omega), if_pos h2]

theorem encodeRune_three {c : Nat} (h1 : 0x800 ≤ c) (h2 : c ≤ 0xFFFF)
    (h3 : ¬ (0xD800 ≤ c ∧ c ≤ 0xDFFF)) :
    EncodeRune c = [0xE0 + c / 4096, 0x80 + c / 64 % 64, 0x80 + c % 64] := by
  rw [EncodeRune, if_neg (by omega), if_neg (by omega), if_neg (by omega), if_pos h2]

theorem encodeRune_four {c : Nat} (h1 : 0x10000 ≤ c) (h2 : c ≤ 0x10FFFF) :
    EncodeRune c =
      [0xF0 + c / 262144, 0x80 + c / 4096 % 64, 0x80 + c / 64 % 64, 0x80 + c % 64] := by
  rw [EncodeRune, if_neg (by omega), if_neg (by omega), if_neg (by omega), if_neg (by omega)]

theorem decodeRune_cons (s0 : Nat) (t : Bytes) :
    DecodeRune (s0 :: t) =
    if s0 < 0x80 then (s0, 1)
    else if s0 < 0xC2 then (RuneError, 1)
    else if s0 < 0xE0 then
      match t with
      | s1 :: _ =>
        if s1 < 0x80 ∨ 0xBF < s1 then (RuneError, 1)
        else (s0 % 32 * 64 + s1 % 64, 2)
      | [] => (RuneError, 1)
    else if s0 < 0xF0 then
      match t with
      | s1 :: s2 :: _ =>
        if s1 < (if s0 = 0xE0 then 0xA0 else 0x80) ∨ (if s0 = 0xED then 0x9F else 0xBF) < s1 then
          (RuneError, 1)
        else if s2 < 0x80 ∨ 0xBF < s2 then (RuneError, 1)
        else (s0 % 16 * 4096 + s1 % 64 * 64 + s2 % 64, 3)
      | _ => (RuneError, 1)
    else if s0 < 0xF5 then
      match t with
      | s1 :: s2 :: s3 :: _ =>
        if s1 < (if s0 = 0xF0 then 0x90 else 0x80) ∨ (if s0 = 0xF4 then 0x8F else 0xBF) < s1 then
          (RuneError, 1)
        else if s2 < 0x80 ∨ 0xBF < s2 then (RuneError, 1)
        else if s3 < 0x80 ∨ 0xBF < s3 then (RuneError, 1)
        else (s0 % 8 * 262144 + s1 % 64 * 4096 + s2 % 64 * 64 + s3 % 64, 4)
      | _ => (RuneError, 1)
    else (RuneError, 1) := by
  rfl

/-- A multi-byte rune that `DecodeRune` accepts is a scalar value, and the bytes it was read
from are its encoding. -/
theorem decodeRune_valid (b : Nat) (rest : Bytes) (hb : 0x80 ≤ b)
    (h : DecodeRune (b :: rest) ≠ (RuneError, 1)) :
    ∃ c, ValidScalar c ∧ 0x80 ≤ c ∧ DecodeRune (b :: rest) = (c, (EncodeRune c).length) ∧
      b :: rest = EncodeRune c ++ (b :: rest).drop (EncodeRune c).length := by
  rw [decodeRune_cons] at h ⊢
  rw [if_neg (by omega)] at h ⊢
  by_cases h1 : b < 0xC2
  · rw [if_pos h1] at h; exact absurd rfl h
  rw [if_neg h1] at h ⊢
  by_cases h2 : b < 0xE0
  · rw [if_pos h2] at h ⊢
    cases rest with
    | nil => exact absurd rfl h
    | cons s1 t =>
      simp only [] at h ⊢
      by_cases r1 : s1 < 0x80 ∨ 0xBF < s1
      · rw [if_pos r1] at h; exact absurd rfl h
      rw [if_neg r1]
      have e := encodeRune_two (c := b % 32 * 64 + s1 % 64) (by omega) (by omega)
      refine ⟨b % 32 * 64 + s1 % 64, Or.inl (by omega), by omega, ?_, ?_⟩
      · rw [e]; rfl
      · rw [e]
        simp only [List.length_cons, List.length_nil, List.drop_succ_cons, List.drop_zero,
          List.cons_append, List.nil_append, List.cons.injEq, and_true]
        omega
  rw [if_neg h2] at h ⊢
  by_cases h3 : b < 0xF0
  · rw [if_pos h3] at h ⊢
    match rest, h with
    | [], h => exact absurd rfl h
    | [_], h => exact absurd rfl h
    | s1 :: s2 :: t, h =>
      simp only [] at h ⊢
      by_cases r1 : s1 < (if b = 0xE0 then 0xA0 else 0x80) ∨ (if b = 0xED then 0x9F else 0xBF) < s1
      · rw [if_pos r1] at h; exact absurd rfl h
      rw [if_neg r1] at h ⊢
      by_cases r2 : s2 < 0x80 ∨ 0xBF < s2
      · rw [if_pos r2] at h; exact absurd rfl h
      rw [if_neg r2]
      have r1a : ¬ s1 < (if b = 0xE0 then 0xA0 else 0x80) := fun x => r1 (Or.inl x)
      have r1b : ¬ (if b = 0xED then 0x9F else 0xBF) < s1 := fun x => r1 (Or.inr x)
      have hs1 : 0x80 ≤ s1 ∧ s1 ≤ 0xBF ∧ (b = 0xE0 → 0xA0 ≤ s1) ∧ (b = 0xED → s1 ≤ 0x9F) := by
        split_ifs at r1a r1b <;> omega
      have e := encodeRune_three (c := b % 16 * 4096 + s1 % 64 * 64 + s2 % 64) (by omega)
        (by omega) (by omega)
      refine ⟨b % 16 * 4096 + s1 % 64 * 64 + s2 % 64, by unfold ValidScalar; omega, by omega,
        ?_, ?_⟩
      · rw [e]; rfl
      · rw [e]
        simp only [List.length_cons, List.length_nil, List.drop_succ_cons, List.drop_zero,
          List.cons_append, List.nil_append, List.cons.injEq, and_true]
        omega
  rw [if_neg h3] at h ⊢
  by_cases h4 : b < 0xF5
  · rw [if_pos h4] at h ⊢
    match rest, h with
    | [], h => exact absurd rfl h
    | [_], h => exact absurd rfl h
    | [_, _], h => exact absurd rfl h
    | s1 :: s2 :: s3 :: t, h =>
      simp only [] at h ⊢
      by_cases r1 : s1 < (if b = 0xF0 then 0x90 else 0x80) ∨ (if b = 0xF4 then 0x8F else 0xBF) < s1
      · rw [if_pos r1] at h; exact absurd rfl h
      rw [if_neg r1] at h ⊢
      by_cases r2 : s2 < 0x80 ∨ 0xBF < s2
      · rw [if_pos r2] at h; exact absurd rfl h
      rw [if_neg r2] at h ⊢
      by_cases r3 : s3 < 0x80 ∨ 0xBF < s3
      · rw [if_pos r3] at h; exact absurd rfl h
      rw [if_neg r3]
      have r1a : ¬ s1 < (if b = 0xF0 then 0x90 else 0x80) := fun x => r1 (Or.inl x)
      have r1b : ¬ (if b = 0xF4 then 0x8F else 0xBF) < s1 := fun x => r1 (Or.inr x)
      have hs1 : 0x80 ≤ s1 ∧ s1 ≤ 0xBF ∧ (b = 0xF0 → 0x90 ≤ s1) ∧ (b = 0xF4 → s1 ≤ 0x8F) := by
        split_ifs at r1a r1b <;> omega
      have e := encodeRune_four
        (c := b % 8 * 262144 + s1 % 64 * 4096 + s2 % 64 * 64 + s3 % 64) (by omega) (by omega)
      refine ⟨b % 8 * 262144 + s1 % 64 * 4096 + s2 % 64 * 64 + s3 % 64,
        by unfold ValidScalar; omega, by omega, ?_, ?_⟩
      · rw [e]; rfl
      · rw [e]
        simp only [List.length_cons, List.length_nil, List.drop_succ_cons, List.drop_zero,
          List.cons_append, List.nil_append, List.cons.injEq, and_true]
        omega
  · rw [if_neg h4] at h; exact absurd rfl h

/-! ## String literals of `encoding/json` -/

theorem coerceLoop_cons (fuel b : Nat) (rest : Bytes) :
    coerceLoop (fuel + 1) (b :: rest) =
    if b < 0x80 then b :: coerceLoop fuel rest
    else
      let (c, size) := DecodeRune (b :: rest)
      if c = RuneError ∧ size = 1 then [0xEF, 0xBF, 0xBD] ++ coerceLoop fuel rest
      else (b :: rest).take size ++ coerceLoop fuel ((b :: rest).drop size) := by
  rfl

theorem validStringLoop_cons (fuel b : Nat) (rest : Bytes) :
    ValidStringLoop (fuel + 1) (b :: rest) =
    if b < 0x80 then ValidStringLoop fuel rest
    else
      let (c, size) := DecodeRune (b :: rest)
      if c = RuneError ∧ size = 1 then false
      else ValidStringLoop fuel ((b :: rest).drop size) := by
  rfl

theorem validScalar_ascii {n : Nat} (h : n < 0x80) : ValidScalar n := Or.inl (by omega)

theorem quoteRune_ascii {n : Nat} (h : n < 0x80) :
    quoteRune n = if htmlSafeSet n then [n] else escapeByte n := by
  rw [quoteRune, if_pos h]

theorem decodeRune_error_iff (s : Bytes) :
    ((DecodeRune s).1 = RuneError ∧ (DecodeRune s).2 = 1) ↔ DecodeRune s = (RuneError, 1) := by
  constructor
  · intro h; exact Prod.ext h.1 h.2
  · intro h; rw [h]; exact ⟨rfl, rfl⟩

/-- The three ways a round of the loops over a Go string goes on a non-empty input. -/
theorem rune_cases (b : Nat) (rest : Bytes) :
    b < 0x80 ∨ (0x80 ≤ b ∧ DecodeRune (b :: rest) = (RuneError, 1)) ∨
    (0x80 ≤ b ∧ ∃ c rest1, ValidScalar c ∧ 0x80 ≤ c ∧ b :: rest = EncodeRune c ++ rest1 ∧
      rest1.length < rest.length ∧ DecodeRune (b :: rest) = (c, (EncodeRune c).length) ∧
      rest1 = (b :: rest).drop (EncodeRune c).length) := by
  by_cases hb : b < 0x80
  · exact Or.inl hb
  · by_cases he : DecodeRune (b :: rest) = (RuneError, 1)
    · exact Or.inr (Or.inl ⟨by omega, he⟩)
    · obtain ⟨c, hv, hc, hd, heq⟩ := decodeRune_valid b rest (by omega) he
      refine Or.inr (Or.inr ⟨by omega, c, _, hv, hc, heq, ?_, hd, rfl⟩)
      obtain ⟨b1, bs, hbs, _, hlen⟩ := encodeRune_head hc
      rw [hbs]
      simp only [List.length_cons, List.drop_succ_cons, List.length_drop]
      have : (b :: rest).length = (EncodeRune c ++ (b :: rest).drop (EncodeRune c).length).length :=
        congrArg List.length heq
      rw [hbs] at this
      simp only [List.length_cons, List.length_append, List.drop_succ_cons, List.length_drop] at this
      omega

theorem appendStringLoop_invalid {b : Nat} {rest : Bytes} (hb : 0x80 ≤ b)
    (he : DecodeRune (b :: rest) = (RuneError, 1)) (fuel : Nat) :
    appendStringLoop (fuel + 1) (b :: rest) =
      [0x5C, 0x75, 0x66, 0x66, 0x66, 0x64] ++ appendStringLoop fuel rest := by
  rw [appendStringLoop_cons, if_neg (by omega), he]
  simp

theorem coerceLoop_invalid {b : Nat} {rest : Bytes} (hb : 0x80 ≤ b)
    (he : DecodeRune (b :: rest) = (RuneError, 1)) (fuel : Nat) :
    coerceLoop (fuel + 1) (b :: rest) = [0xEF, 0xBF, 0xBD] ++ coerceLoop fuel rest := by
  rw [coerceLoop_cons, if_neg (by omega), he]
  simp

theorem coerceLoop_encodeRune {c : Nat} (hv : ValidScalar c) (fuel : Nat) (rest : Bytes) :
    coerceLoop (fuel + 1) (EncodeRune c ++ rest) = EncodeRune c ++ coerceLoop fuel rest := by
  by_cases h : c < 0x80
  · rw [encodeRune_ascii h]
    show coerceLoop (fuel + 1) (c :: rest) = _
    rw [coerceLoop_cons, if_pos h]
    rfl
  · obtain ⟨b, bs, hb, hb80, hlen⟩ := encodeRune_head (n := c) (by omega)
    have hdec := decodeRune_encodeRune hv (by omega) rest
    have htake : (EncodeRune c ++ rest).take (EncodeRune c).length = EncodeRune c := by simp
    have hdrop : (EncodeRune c ++ rest).drop (EncodeRune c).length = rest := by simp
    have hlen2 : (EncodeRune c).length ≠ 1 := by rw [hb]; simp only [List.length_cons]; omega
    rw [hb] at hdec htake hdrop hlen2 ⊢
    rw [List.cons_append] at hdec htake hdrop ⊢
    rw [coerceLoop_cons, if_neg (show ¬ b < 0x80 by omega), hdec]
    simp only []
    rw [if_neg (fun hh => hlen2 hh.2), htake, hdrop]

theorem unquoteLoop_replacement (fuel : Nat) (more : Bytes) :
    unquoteLoop (fuel + 1) ([0x5C, 0x75, 0x66, 0x66, 0x66, 0x64] ++ more) =
      consText [0xEF, 0xBF, 0xBD] (unquoteLoop fuel more) := by
  rw [List.cons_append, unquoteLoop_cons]
  simp [getu4_cons, hexValue, EncodeRune]

/-- Reading back the string literal that `appendString` wrote for any Go string gives the
text that `encoding/json` keeps of it, and the input after the literal. -/
theorem unquoteLoop_appendStringLoop :
    ∀ (fuel : Nat) (s : Bytes), s.length ≤ fuel → ∀ (fuel2 : Nat) (tail : Bytes),
      s.length + 1 ≤ fuel2 →
      unquoteLoop fuel2 (appendStringLoop fuel s ++ 0x22 :: tail) =
        some (coerceLoop fuel s, tail) := by
  intro fuel
  induction fuel with
  | zero =>
    intro s hs fuel2 tail hf
    obtain ⟨f, rfl⟩ : ∃ f, fuel2 = f + 1 := ⟨fuel2 - 1, by omega⟩
    cases s with
    | nil => rfl
    | cons b rest => simp at hs
  | succ fuel ih =>
    intro s hs fuel2 tail hf
    obtain ⟨f, rfl⟩ : ∃ f, fuel2 = f + 1 := ⟨fuel2 - 1, by omega⟩
    cases s with
    | nil => rfl
    | cons b rest =>
      simp only [List.length_cons] at hs hf
      rcases rune_cases b rest with hb | ⟨hb, he⟩ | ⟨hb, c, rest1, hv, hc, heq, hlt, _, _⟩
      · have h1 := appendStringLoop_encodeRune (validScalar_ascii hb) fuel rest
        have h2 := coerceLoop_encodeRune (validScalar_ascii hb) fuel rest
        rw [encodeRune_ascii hb] at h1 h2
        rw [List.singleton_append] at h1 h2
        rw [h1, h2, List.append_assoc, unquoteLoop_quoteRune (validScalar_ascii hb),
          ih rest (by omega) f tail (by omega), consText_some, encodeRune_ascii hb]
      · rw [appendStringLoop_invalid hb he, coerceLoop_invalid hb he, List.append_assoc,
          unquoteLoop_replacement, ih rest (by omega) f tail (by omega), consText_some]
      · rw [heq, appendStringLoop_encodeRune hv, coerceLoop_encodeRune hv, List.append_assoc,
          unquoteLoop_quoteRune hv, ih rest1 (by omega) f tail (by omega), consText_some]

theorem length_le_appendStringLoop :
    ∀ (fuel : Nat) (s : Bytes), s.length ≤ fuel → s.length ≤ (appendStringLoop fuel s).length := by
  intro fuel
  induction fuel with
  | zero => intro s hs; cases s with
    | nil => simp
    | cons b rest => simp at hs
  | succ fuel ih =>
    intro s hs
    cases s with
    | nil => simp
    | cons b rest =>
      simp only [List.length_cons] at hs
      rcases rune_cases b rest with hb | ⟨hb, he⟩ | ⟨hb, c, rest1, hv, hc, heq, hlt, _, hr⟩
      · have h1 := appendStringLoop_encodeRune (validScalar_ascii hb) fuel rest
        rw [encodeRune_ascii hb, List.singleton_append] at h1
        rw [h1, List.length_append, List.length_cons]
        have := List.length_pos.mpr (quoteRune_ne_nil b)
        have := ih rest (by omega)
        omega
      · rw [appendStringLoop_invalid hb he, List.length_append, List.length_cons]
        have := ih rest (by omega)
        simp only [List.length_cons, List.length_nil]
        omega
      · have hlen : (b :: rest).length = (EncodeRune c).length + rest1.length := by
          rw [heq, List.length_append]
        have hq : (EncodeRune c).length ≤ (quoteRune c).length := by
          rw [quoteRune, if_neg (by omega)]
          split_ifs with h2
          · have : (EncodeRune c).length ≤ 4 := by
              unfold EncodeRune; split_ifs <;> simp
            simp only [List.length_cons, List.length_nil]
            omega
          · exact le_refl _
        rw [heq, appendStringLoop_encodeRune hv, List.length_append, List.length_append]
        have := ih rest1 (by omega)
        omega

/-- Reading back what `appendString` wrote: the decoder gets the coerced text. -/
theorem unquote_appendString (s tail : Bytes) :
    unquote (appendStringLoop s.length s ++ 0x22 :: tail) = some (coerceUTF8 s, tail) := by
  rw [unquote, coerceUTF8]
  apply unquoteLoop_appendStringLoop _ _ (le_refl _)
  rw [List.length_append, List.length_cons]
  have := length_le_appendStringLoop s.length s (le_refl _)
  omega

theorem validStringLoop_encodeRune {c : Nat} (hv : ValidScalar c) (fuel : Nat) (rest : Bytes) :
    ValidStringLoop (fuel + 1) (EncodeRune c ++ rest) = ValidStringLoop fuel rest := by
  by_cases h : c < 0x80
  · rw [encodeRune_ascii h]
    show ValidStringLoop (fuel + 1) (c :: rest) = _
    rw [validStringLoop_cons, if_pos h]
  · obtain ⟨b, bs, hb, hb80, hlen⟩ := encodeRune_head (n := c) (by omega)
    have hdec := decodeRune_encodeRune hv (by omega) rest
    have hdrop : (EncodeRune c ++ rest).drop (EncodeRune c).length = rest := by simp
    have hlen2 : (EncodeRune c).length ≠ 1 := by rw [hb]; simp only [List.length_cons]; omega
    rw [hb] at hdec hdrop hlen2 ⊢
    rw [List.cons_append] at hdec hdrop ⊢
    rw [validStringLoop_cons, if_neg (show ¬ b < 0x80 by omega), hdec]
    simp only []
    rw [if_neg (fun hh => hlen2 hh.2), hdrop]

theorem validStringLoop_invalid {b : Nat} {rest : Bytes} (hb : 0x80 ≤ b)
    (he : DecodeRune (b :: rest) = (RuneError, 1)) (fuel : Nat) :
    ValidStringLoop (fuel + 1) (b :: rest) = false := by
  rw [validStringLoop_cons, if_neg (by omega), he]
  simp

/-- The coerced text is never shorter than the string, and it is the string itself exactly
when the string is valid UTF-8. -/
theorem coerceLoop_spec :
    ∀ (fuel : Nat) (s : Bytes), s.length ≤ fuel →
      s.length ≤ (coerceLoop fuel s).length ∧
      (ValidStringLoop fuel s = true → coerceLoop fuel s = s) ∧
      (ValidStringLoop fuel s = false → s.length < (coerceLoop fuel s).length) := by
  intro fuel
  induction fuel with
  | zero =>
    intro s hs
    cases s with
    | nil => simp [coerceLoop, ValidStringLoop]
    | cons b rest => simp at hs
  | succ fuel ih =>
    intro s hs
    cases s with
    | nil => simp [coerceLoop, ValidStringLoop]
    | cons b rest =>
      simp only [List.length_cons] at hs
      rcases rune_cases b rest with hb | ⟨hb, he⟩ | ⟨hb, c, rest1, hv, hc, heq, hlt, _, hr⟩
      · obtain ⟨i1, i2, i3⟩ := ih rest (by omega)
        rw [coerceLoop_cons, validStringLoop_cons, if_pos hb, if_pos hb]
        refine ⟨by simp only [List.length_cons]; omega, fun h => by rw [i2 h],
          fun h => by simp only [List.length_cons]; have := i3 h; omega⟩
      · obtain ⟨i1, _, _⟩ := ih rest (by omega)
        rw [coerceLoop_invalid hb he, validStringLoop_invalid hb he]
        simp only [List.cons_append, List.nil_append, List.length_cons]
        exact ⟨by omega, fun h => absurd h (by simp), fun _ => by omega⟩
      · obtain ⟨i1, i2, i3⟩ := ih rest1 (by omega)
        rw [heq, coerceLoop_encodeRune hv, validStringLoop_encodeRune hv]
        simp only [List.length_append]
        exact ⟨by omega, fun h => by rw [i2 h], fun h => by have := i3 h; omega⟩

/-- A valid UTF-8 string is kept as it is. -/
theorem coerceUTF8_of_valid {s : Bytes} (h : ValidString s = true) : coerceUTF8 s = s :=
  (coerceLoop_spec s.length s (le_refl _)).2.1 h

/-- A string that is kept as it is is valid UTF-8. -/
theorem valid_of_coerceUTF8 {s : Bytes} (h : coerceUTF8 s = s) : ValidString s = true := by
  cases hv : ValidString s with
  | true => rfl
  | false =>
    have := (coerceLoop_spec s.length s (le_refl _)).2.2 hv
    rw [show coerceLoop s.length s = s from h] at this
    omega

/-! ## Records -/

theorem skipSpace_cons {c : Nat} (h : isSpace c = false) (rest : Bytes) :
    skipSpace (c :: rest) = c :: rest := by
  simp [skipSpace, h]

theorem unmarshalMembers_cons (fuel c : Nat) (rest : Bytes) (t : Tender) :
    unmarshalMembers (fuel + 1) (c :: rest) t =
    if c ≠ 0x22 then none
    else
      match unquote rest with
      | none => none
      | some (key, rest) =>
        match skipSpace rest with
        | [] => none
        | c :: rest =>
          if c ≠ 0x3A then none
          else
            match skipSpace rest with
            | [] => none
            | c :: rest =>
              if c ≠ 0x22 then none
              else
                match unquote rest with
                | none => none
                | some (value, rest) =>
                  match setField t key value with
                  | none => none
                  | some t =>
                    match skipSpace rest with
                    | [] => none
                    | c :: rest =>
                      if c = 0x2C then unmarshalMembers fuel (skipSpace rest) t
                      else if c = 0x7D then (if skipSpace rest = [] then some t else none)
                      else none := by
  rfl

theorem four_le_length_marshal (t : Tender) : 4 ≤ (Marshal t).length := by
  simp only [Marshal, appendString, List.length_append, List.length_cons, List.length_nil]
  omega

theorem setField_type (t : Tender) (v : Bytes) :
    setField t (str "type") v = some { t with Type_ := v } := by
  rw [setField, if_pos (show str "type" = str "type" from rfl)]

theorem setField_timestamp (t : Tender) (v : Bytes) :
    setField t (str "timestamp") v = some { t with Timestamp := v } := by
  rw [setField, if_neg (by decide), if_pos (show str "timestamp" = str "timestamp" from rfl)]

theorem setField_size (t : Tender) (v : Bytes) :
    setField t (str "size") v = some { t with Size := v } := by
  rw [setField, if_neg (by decide), if_neg (by decide), if_pos (show str "size" = str "size" from rfl)]

theorem setField_lots (t : Tender) (v : Bytes) :
    setField t (str "lots") v = some { t with Lots := v } := by
  rw [setField, if_neg (by decide), if_neg (by decide), if_neg (by decide), if_pos (show str "lots" = str "lots" from rfl)]

theorem unmarshalMembers_comma (fuel : Nat) (key value tail : Bytes)
    (t t1 : Tender) (hset : setField t (coerceUTF8 key) (coerceUTF8 value) = some t1) :
    unmarshalMembers (fuel + 1)
        (appendString key ++ 0x3A :: (appendString value ++ 0x2C :: tail)) t =
      unmarshalMembers fuel (skipSpace tail) t1 := by
  simp only [appendString, List.cons_append, List.append_assoc, List.nil_append]
  rw [unmarshalMembers_cons, if_neg (by decide), unquote_appendString]
  simp only []
  rw [skipSpace_cons (by decide)]
  simp only []
  rw [if_neg (by decide), skipSpace_cons (by decide)]
  simp only []
  rw [if_neg (by decide), unquote_appendString]
  simp only [hset]
  rw [skipSpace_cons (by decide)]
  exact if_pos rfl

theorem unmarshalMembers_last (fuel : Nat) (key value : Bytes)
    (t t1 : Tender) (hset : setField t (coerceUTF8 key) (coerceUTF8 value) = some t1) :
    unmarshalMembers (fuel + 1) (appendString key ++ 0x3A :: (appendString value ++ [0x7D])) t =
      some t1 := by
  simp only [appendString, List.cons_append, List.append_assoc, List.nil_append]
  rw [unmarshalMembers_cons, if_neg (by decide), unquote_appendString]
  simp only []
  rw [skipSpace_cons (by decide)]
  simp only []
  rw [if_neg (by decide), skipSpace_cons (by decide)]
  simp only []
  rw [if_neg (by decide), unquote_appendString]
  simp only [hset]
  rw [skipSpace_cons (by decide)]
  rfl

theorem marshal_eq (t : Tender) :
    Marshal t = 0x7B :: (appendString (str "type") ++ 0x3A :: (appendString t.Type_ ++ 0x2C ::
      (appendString (str "timestamp") ++ 0x3A :: (appendString t.Timestamp ++ 0x2C ::
      (appendString (str "size") ++ 0x3A :: (appendString t.Size ++ 0x2C ::
      (appendString (str "lots") ++ 0x3A :: (appendString t.Lots ++ [0x7D])))))))) := by
  simp only [Marshal, List.cons_append, List.nil_append, List.append_assoc]

theorem appendString_head (s : Bytes) : ∃ r, appendString s = 0x22 :: r := ⟨_, rfl⟩

/-- Decoding the encoding of any record gives the record of the coerced fields. -/
theorem unmarshal_marshal_coerce (t : Tender) :
    Unmarshal (Marshal t) =
      some { Type_ := coerceUTF8 t.Type_, Timestamp := coerceUTF8 t.Timestamp,
             Size := coerceUTF8 t.Size, Lots := coerceUTF8 t.Lots } := by
  have hlen := four_le_length_marshal t
  obtain ⟨f, hf⟩ : ∃ f, (Marshal t).length = f + 1 + 1 + 1 + 1 :=
    ⟨_, (Nat.sub_add_cancel hlen).symm⟩
  have k1 : coerceUTF8 (str "type") = str "type" := by decide
  have k2 : coerceUTF8 (str "timestamp") = str "timestamp" := by decide
  have k3 : coerceUTF8 (str "size") = str "size" := by decide
  have k4 : coerceUTF8 (str "lots") = str "lots" := by decide
  have s1 : ∀ (u : Tender) (v : Bytes),
      setField u (coerceUTF8 (str "type")) v = some { u with Type_ := v } := by
    intro u v; rw [k1]; exact setField_type u v
  have s2 : ∀ (u : Tender) (v : Bytes),
      setField u (coerceUTF8 (str "timestamp")) v = some { u with Timestamp := v } := by
    intro u v; rw [k2]; exact setField_timestamp u v
  have s3 : ∀ (u : Tender) (v : Bytes),
      setField u (coerceUTF8 (str "size")) v = some { u with Size := v } := by
    intro u v; rw [k3]; exact setField_size u v
  have s4 : ∀ (u : Tender) (v : Bytes),
      setField u (coerceUTF8 (str "lots")) v = some { u with Lots := v } := by
    intro u v; rw [k4]; exact setField_lots u v
  rw [Unmarshal, hf, marshal_eq, skipSpace_cons (by decide)]
  simp only []
  rw [if_neg (by decide)]
  obtain ⟨r, hr⟩ := appendString_head (str "type")
  have hsk : ∀ rest : Bytes, skipSpace (appendString (str "type") ++ rest) =
      appendString (str "type") ++ rest := by
    intro rest; rw [hr, List.cons_append, skipSpace_cons (by decide)]
  rw [hsk]
  rw [hr, List.cons_append]
  simp only []
  rw [if_neg (by decide), ← List.cons_append, ← hr]
  have hsk2 : ∀ (s rest : Bytes), skipSpace (appendString s ++ rest) = appendString s ++ rest := by
    intro s rest; rw [appendString, List.cons_append, skipSpace_cons (by decide)]
  rw [unmarshalMembers_comma _ _ _ _ _ _ (s1 _ _), hsk2,
    unmarshalMembers_comma _ _ _ _ _ _ (s2 _ _), hsk2,
    unmarshalMembers_comma _ _ _ _ _ _ (s3 _ _), hsk2,
    unmarshalMembers_last _ _ _ _ _ (s4 _ _)]

/-- Decoding the encoding of a record gives the record back exactly when its four fields are
valid UTF-8. -/
theorem unmarshal_marshal_iff (t : Tender) :
    Unmarshal (Marshal t) = some t ↔
      (ValidString t.Type_ = true ∧ ValidString t.Timestamp = true ∧
        ValidString t.Size = true ∧ ValidString t.Lots = true) := by
  rw [unmarshal_marshal_coerce]
  constructor
  · intro h
    have h' := Option.some.inj h
    have e1 := congrArg Tender.Type_ h'
    have e2 := congrArg Tender.Timestamp h'
    have e3 := congrArg Tender.Size h'
    have e4 := congrArg Tender.Lots h'
    exact ⟨valid_of_coerceUTF8 e1, valid_of_coerceUTF8 e2, valid_of_coerceUTF8 e3,
      valid_of_coerceUTF8 e4⟩
  · rintro ⟨h1, h2, h3, h4⟩
    rw [coerceUTF8_of_valid h1, coerceUTF8_of_valid h2, coerceUTF8_of_valid h3,
      coerceUTF8_of_valid h4]

/-! ## The key order -/

theorem bytesLt_irrefl (a : Bytes) : bytesLt a a = false := by
  induction a with
  | nil => rfl
  | cons x xs ih => simp [bytesLt, ih]

theorem bytesLt_cons_of_lt {x y : Nat} (h : x < y) (xs ys : Bytes) :
    bytesLt (x :: xs) (y :: ys) = true := by
  simp [bytesLt, h]

theorem bytesLt_cons_of_gt {x y : Nat} (h : y < x) (xs ys : Bytes) :
    bytesLt (x :: xs) (y :: ys) = false := by
  simp [bytesLt, h, Nat.lt_asymm h]

theorem bytesLt_cons_same (x : Nat) (xs ys : Bytes) :
    bytesLt (x :: xs) (x :: ys) = bytesLt xs ys := by
  simp [bytesLt]

theorem bytesLt_asymm : ∀ a b : Bytes, bytesLt a b = true → bytesLt b a = false := by
  intro a
  induction a with
  | nil => intro b _; cases b <;> rfl
  | cons x xs ih =>
    intro b h
    cases b with
    | nil => simp [bytesLt] at h
    | cons y ys =>
      rcases Nat.lt_trichotomy x y with hxy | hxy | hxy
      · exact bytesLt_cons_of_gt hxy _ _
      · subst hxy
        rw [bytesLt_cons_same] at h ⊢
        exact ih ys h
      · rw [bytesLt_cons_of_gt hxy] at h
        exact absurd h (by simp)

theorem bytesLt_trans : ∀ a b c : Bytes, bytesLt a b = true → bytesLt b c = true →
    bytesLt a c = true := by
  intro a
  induction a with
  | nil =>
    intro b c h1 h2
    cases c with
    | nil => cases b <;> simp [bytesLt] at h2
    | cons z zs => rfl
  | cons x xs ih =>
    intro b c h1 h2
    cases b with
    | nil => simp [bytesLt] at h1
    | cons y ys =>
      cases c with
      | nil => simp [bytesLt] at h2
      | cons z zs =>
        rcases Nat.lt_trichotomy x y with hxy | hxy | hxy
        · rcases Nat.lt_trichotomy y z with hyz | hyz | hyz
          · exact bytesLt_cons_of_lt (by omega) _ _
          · subst hyz; exact bytesLt_cons_of_lt hxy _ _
          · rw [bytesLt_cons_of_gt hyz] at h2
            exact absurd h2 (by simp)
        · subst hxy
          rcases Nat.lt_trichotomy x z with hyz | hyz | hyz
          · exact bytesLt_cons_of_lt hyz _ _
          · subst hyz
            rw [bytesLt_cons_same] at h1 h2 ⊢
            exact ih ys zs h1 h2
          · rw [bytesLt_cons_of_gt hyz] at h2
            exact absurd h2 (by simp)
        · rw [bytesLt_cons_of_gt hxy] at h1
          exact absurd h1 (by simp)

theorem bytesLt_total : ∀ a b : Bytes, bytesLt a b = false → bytesLt b a = false → a = b := by
  intro a
  induction a with
  | nil =>
    intro b h1 _
    cases b with
    | nil => rfl
    | cons y ys => simp [bytesLt] at h1
  | cons x xs ih =>
    intro b h1 h2
    cases b with
    | nil => simp [bytesLt] at h2
    | cons y ys =>
      rcases Nat.lt_trichotomy x y with hxy | hxy | hxy
      · rw [bytesLt_cons_of_lt hxy] at h1
        exact absurd h1 (by simp)
      · subst hxy
        rw [bytesLt_cons_same] at h1 h2
        rw [ih ys h1 h2]
      · rw [bytesLt_cons_of_lt hxy] at h2
        exact absurd h2 (by simp)

/-! ## The world state -/

theorem stateGet_statePut_same (k v : Bytes) (st : List KV) :
    stateGet (statePut k v st) k = some v := by
  induction st with
  | nil => simp [statePut, stateGet]
  | cons kv rest ih =>
    obtain ⟨k0, v0⟩ := kv
    simp only [statePut]
    split_ifs with h1 h2
    · simp [stateGet]
    · simp [stateGet]
    · simp only [stateGet]
      rw [if_neg (fun h => h2 h.symm), ih]

theorem stateGet_statePut_other (k v k1 : Bytes) (st : List KV) (h : k1 ≠ k) :
    stateGet (statePut k v st) k1 = stateGet st k1 := by
  induction st with
  | nil => simp [statePut, stateGet, Ne.symm h]
  | cons kv rest ih =>
    obtain ⟨k0, v0⟩ := kv
    simp only [statePut]
    split_ifs with h1 h2
    · simp [stateGet, Ne.symm h]
    · subst h2
      simp [stateGet, Ne.symm h]
    · simp only [stateGet]
      rw [ih]

theorem mem_statePut (k v : Bytes) (st : List KV) (kv : KV) (h : kv ∈ statePut k v st) :
    kv = (k, v) ∨ kv ∈ st := by
  induction st with
  | nil => simpa [statePut] using h
  | cons kv0 rest ih =>
    obtain ⟨k0, v0⟩ := kv0
    simp only [statePut] at h
    split_ifs at h with h1 h2
    · simpa using h
    · rcases List.mem_cons.mp h with h | h
      · exact Or.inl h
      · exact Or.inr (List.mem_cons_of_mem _ h)
    · rcases List.mem_cons.mp h with h | h
      · exact Or.inr (by rw [h]; exact List.mem_cons_self _ _)
      · rcases ih h with h | h
        · exact Or.inl h
        · exact Or.inr (List.mem_cons_of_mem _ h)

theorem statePut_statePut_same (k v w : Bytes) (st : List KV) :
    statePut k v (statePut k w st) = statePut k v st := by
  induction st with
  | nil => simp [statePut, bytesLt_irrefl]
  | cons kv rest ih =>
    obtain ⟨k0, v0⟩ := kv
    simp only [statePut]
    split_ifs with h1 h2
    · simp [statePut, bytesLt_irrefl]
    · simp [statePut, bytesLt_irrefl]
    · simp only [statePut, if_neg h1, if_neg h2, ih]

theorem statePut_cons_lt {k k0 : Bytes} (h : bytesLt k k0 = true) (v v0 : Bytes) (rest : List KV) :
    statePut k v ((k0, v0) :: rest) = (k, v) :: (k0, v0) :: rest := by
  simp [statePut, h]

theorem statePut_cons_eq (k v v0 : Bytes) (rest : List KV) :
    statePut k v ((k, v0) :: rest) = (k, v) :: rest := by
  simp [statePut, bytesLt_irrefl]

theorem statePut_cons_gt {k k0 : Bytes} (h : bytesLt k k0 = false) (hne : k ≠ k0) (v v0 : Bytes)
    (rest : List KV) :
    statePut k v ((k0, v0) :: rest) = (k0, v0) :: statePut k v rest := by
  simp [statePut, h, hne]

theorem bytesLt_cases (a b : Bytes) :
    bytesLt a b = true ∨ a = b ∨ (bytesLt a b = false ∧ a ≠ b ∧ bytesLt b a = true) := by
  by_cases h1 : bytesLt a b = true
  · exact Or.inl h1
  · have h1f : bytesLt a b = false := by simpa using h1
    by_cases h2 : bytesLt b a = true
    · refine Or.inr (Or.inr ⟨h1f, ?_, h2⟩)
      intro hab
      rw [hab, bytesLt_irrefl] at h2
      exact absurd h2 (by simp)
    · exact Or.inr (Or.inl (bytesLt_total _ _ h1f (by simpa using h2)))

theorem bytesLt_ne {a b : Bytes} (h : bytesLt a b = true) : a ≠ b := by
  intro hab
  rw [hab, bytesLt_irrefl] at h
  exact absurd h (by simp)

/-- Writes at two different keys commute. -/
theorem statePut_comm (k1 v1 k2 v2 : Bytes) (st : List KV) (h : k1 ≠ k2) :
    statePut k1 v1 (statePut k2 v2 st) = statePut k2 v2 (statePut k1 v1 st) := by
  induction st with
  | nil =>
    simp only [statePut]
    rcases bytesLt_cases k1 k2 with h1 | h1 | ⟨h1, _, h2⟩
    · have h2 := bytesLt_asymm _ _ h1
      simp [h1, h2, h, Ne.symm h]
    · exact absurd h1 h
    · simp [h1, h2, h, Ne.symm h]
  | cons kv rest ih =>
    obtain ⟨k0, v0⟩ := kv
    rcases bytesLt_cases k1 k0 with a1 | a1 | ⟨a1, a1n, a1g⟩
    · rcases bytesLt_cases k2 k0 with a2 | a2 | ⟨a2, a2n, a2g⟩
      · rw [statePut_cons_lt a2, statePut_cons_lt a1]
        rcases bytesLt_cases k1 k2 with b | b | ⟨b, _, bg⟩
        · rw [statePut_cons_lt b, statePut_cons_gt (bytesLt_asymm _ _ b) (Ne.symm h),
            statePut_cons_lt a2]
        · exact absurd b h
        · rw [statePut_cons_gt b h, statePut_cons_lt a1, statePut_cons_lt bg]
      · subst a2
        rw [statePut_cons_eq, statePut_cons_lt a1, statePut_cons_lt a1,
          statePut_cons_gt (bytesLt_asymm _ _ a1) (Ne.symm h), statePut_cons_eq]
      · rw [statePut_cons_gt a2 a2n, statePut_cons_lt a1, statePut_cons_lt a1]
        have hlt : bytesLt k1 k2 = true := bytesLt_trans _ _ _ a1 a2g
        rw [statePut_cons_gt (bytesLt_asymm _ _ hlt) (Ne.symm h), statePut_cons_gt a2 a2n]
    · subst a1
      rcases bytesLt_cases k2 k1 with a2 | a2 | ⟨a2, a2n, a2g⟩
      · rw [statePut_cons_lt a2, statePut_cons_eq, statePut_cons_lt a2,
          statePut_cons_gt (bytesLt_asymm _ _ a2) h, statePut_cons_eq]
      · exact absurd a2.symm h
      · rw [statePut_cons_gt a2 a2n, statePut_cons_eq, statePut_cons_eq, statePut_cons_gt a2 a2n]
    · rcases bytesLt_cases k2 k0 with a2 | a2 | ⟨a2, a2n, a2g⟩
      · rw [statePut_cons_lt a2, statePut_cons_gt a1 a1n]
        have hlt : bytesLt k2 k1 = true := bytesLt_trans _ _ _ a2 a1g
        rw [statePut_cons_gt (bytesLt_asymm _ _ hlt) h, statePut_cons_gt a1 a1n,
          statePut_cons_lt a2]
      · subst a2
        rw [statePut_cons_eq, statePut_cons_gt a1 a1n, statePut_cons_gt a1 a1n, statePut_cons_eq]
      · rw [statePut_cons_gt a2 a2n, statePut_cons_gt a1 a1n, statePut_cons_gt a1 a1n,
          statePut_cons_gt a2 a2n, ih]

/-! ## The handlers -/

theorem iterItems_ok (nextErr : Nat → Option Bytes) (h : ∀ n, nextErr n = none) (kvs : List KV) :
    ∀ n, iterItems nextErr n kvs = kvs.map Except.ok := by
  induction kvs with
  | nil => intro n; rfl
  | cons kv rest ih => intro n; simp [iterItems, h, ih]

theorem queryAllTendersLoop_written (items : List KV) :
    ∀ (buffer : Bytes) (calls : List StubCall),
      (queryAllTendersLoop (items.map Except.ok) buffer true calls).1 =
        Except.ok (buffer ++ items.flatMap (fun e => str "," ++ entryText e)) := by
  induction items with
  | nil => intro buffer calls; simp [queryAllTendersLoop]
  | cons kv rest ih =>
    intro buffer calls
    simp only [List.map_cons, queryAllTendersLoop, if_true, ih, List.flatMap_cons, entryText,
      List.append_assoc]
    rfl

theorem queryAllTendersLoop_ok (items : List KV) (calls : List StubCall) :
    (queryAllTendersLoop (items.map Except.ok) (str "[") false calls).1 =
      Except.ok (str "[" ++ entriesText items) := by
  cases items with
  | nil => simp [queryAllTendersLoop, entriesText]
  | cons kv rest =>
    simp only [List.map_cons, queryAllTendersLoop, queryAllTendersLoop_written, entriesText,
      entryText, List.append_assoc]
    rfl

/-- The response of `queryAllTenders` when neither the range query nor a step of the iteration
fails: the array of the entries in the fixed range, in the order of the ledger. -/
theorem queryAllTenders_response (stub : ChaincodeStub) (hrange : stub.rangeErr = none)
    (hnext : ∀ n, stub.nextErr n = none) :
    (queryAllTenders stub).1 =
      Response.Success (some (arrayText (stateRange (str "0") (str "999") stub.state))) := by
  have h := queryAllTendersLoop_ok (stateRange (str "0") (str "999") stub.state)
    (stub.calls ++ [StubCall.GetStateByRange (str "0") (str "999")])
  simp only [queryAllTenders, ChaincodeStub.GetStateByRange, hrange, iterItems_ok _ hnext]
  generalize queryAllTendersLoop _ _ _ _ = r at h ⊢
  obtain ⟨r1, r2⟩ := r
  simp only at h
  subst h
  simp [arrayText]

theorem queryAllTenders_state (stub : ChaincodeStub) :
    (queryAllTenders stub).2.state = stub.state := by
  simp only [queryAllTenders, ChaincodeStub.GetStateByRange]
  cases stub.rangeErr with
  | some e => rfl
  | none =>
    simp only []
    generalize queryAllTendersLoop _ _ _ _ = r
    obtain ⟨r1, r2⟩ := r
    cases r1 <;> rfl

theorem putState_ok (stub : ChaincodeStub) (k v : Bytes) (h : stub.putErr k v = none) :
    stub.PutState k v =
      (none, { stub with calls := stub.calls ++ [StubCall.PutState k v],
                         state := statePut k v stub.state }) := by
  simp [ChaincodeStub.PutState, h]

theorem putState_putErr (stub : ChaincodeStub) (k v : Bytes) :
    (stub.PutState k v).2.putErr = stub.putErr := by
  unfold ChaincodeStub.PutState
  cases stub.putErr k v <;> rfl

theorem putState_getErr (stub : ChaincodeStub) (k v : Bytes) :
    (stub.PutState k v).2.getErr = stub.getErr := by
  unfold ChaincodeStub.PutState
  cases stub.putErr k v <;> rfl

theorem putState_rangeErr (stub : ChaincodeStub) (k v : Bytes) :
    (stub.PutState k v).2.rangeErr = stub.rangeErr := by
  unfold ChaincodeStub.PutState
  cases stub.putErr k v <;> rfl

theorem putState_nextErr (stub : ChaincodeStub) (k v : Bytes) :
    (stub.PutState k v).2.nextErr = stub.nextErr := by
  unfold ChaincodeStub.PutState
  cases stub.putErr k v <;> rfl

theorem putState_mem (stub : ChaincodeStub) (k v : Bytes) (kv : KV)
    (h : kv ∈ (stub.PutState k v).2.state) : kv = (k, v) ∨ kv ∈ stub.state := by
  unfold ChaincodeStub.PutState at h
  cases hp : stub.putErr k v with
  | some e => rw [hp] at h; exact Or.inr h
  | none => rw [hp] at h; exact mem_statePut k v _ kv h

theorem initLedgerLoop_putErr (ts : List Tender) :
    ∀ (i : Nat) (stub : ChaincodeStub), (initLedgerLoop ts i stub).putErr = stub.putErr := by
  induction ts with
  | nil => intro i stub; rfl
  | cons t rest ih => intro i stub; simp only [initLedgerLoop]; rw [ih, putState_putErr]

theorem initLedgerLoop_getErr (ts : List Tender) :
    ∀ (i : Nat) (stub : ChaincodeStub), (initLedgerLoop ts i stub).getErr = stub.getErr := by
  induction ts with
  | nil => intro i stub; rfl
  | cons t rest ih => intro i stub; simp only [initLedgerLoop]; rw [ih, putState_getErr]

theorem initLedgerLoop_rangeErr (ts : List Tender) :
    ∀ (i : Nat) (stub : ChaincodeStub), (initLedgerLoop ts i stub).rangeErr = stub.rangeErr := by
  induction ts with
  | nil => intro i stub; rfl
  | cons t rest ih => intro i stub; simp only [initLedgerLoop]; rw [ih, putState_rangeErr]

theorem initLedgerLoop_nextErr (ts : List Tender) :
    ∀ (i : Nat) (stub : ChaincodeStub), (initLedgerLoop ts i stub).nextErr = stub.nextErr := by
  induction ts with
  | nil => intro i stub; rfl
  | cons t rest ih => intro i stub; simp only [initLedgerLoop]; rw [ih, putState_nextErr]

/-- When no write fails, the loop of `initLedger` leaves the world state of its writes. -/
theorem initLedgerLoop_state (ts : List Tender) :
    ∀ (i : Nat) (stub : ChaincodeStub), (∀ k v, stub.putErr k v = none) →
      (initLedgerLoop ts i stub).state = putAll stub.state (seedPuts ts i) := by
  induction ts with
  | nil => intro i stub _; rfl
  | cons t rest ih =>
    intro i stub h
    simp only [initLedgerLoop, seedPuts, putAll, List.foldl_cons]
    rw [ih (i + 1) _ (by rw [putState_putErr]; exact h), putState_ok _ _ _ (h _ _)]
    rfl

theorem initLedgerLoop_mem (ts : List Tender) :
    ∀ (i : Nat) (stub : ChaincodeStub) (kv : KV), kv ∈ (initLedgerLoop ts i stub).state →
      kv ∈ stub.state ∨ IsTenderEncoding kv.2 := by
  induction ts with
  | nil => intro i stub kv h; exact Or.inl h
  | cons t rest ih =>
    intro i stub kv h
    simp only [initLedgerLoop] at h
    rcases ih _ _ kv h with h1 | h1
    · rcases putState_mem _ _ _ kv h1 with h2 | h2
      · exact Or.inr ⟨t, by rw [h2]⟩
      · exact Or.inl h2
    · exact Or.inr h1

/-! ## Sequences of writes -/

theorem putAll_cons (st : List KV) (p : KV) (ps : List KV) :
    putAll st (p :: ps) = putAll (statePut p.1 p.2 st) ps := rfl

theorem statePut_putAll (k v : Bytes) (ps : List KV) (hk : k ∉ ps.map Prod.fst) :
    ∀ st, statePut k v (putAll st ps) = putAll (statePut k v st) ps := by
  induction ps with
  | nil => intro st; rfl
  | cons p rest ih =>
    intro st
    simp only [List.map_cons, List.mem_cons, not_or] at hk
    rw [putAll_cons, putAll_cons, ih hk.2, statePut_comm _ _ _ _ _ hk.1]

/-- Writing a sequence of pairs with distinct keys a second time changes nothing. -/
theorem putAll_putAll (ps : List KV) (hnd : (ps.map Prod.fst).Nodup) :
    ∀ st, putAll (putAll st ps) ps = putAll st ps := by
  induction ps with
  | nil => intro st; rfl
  | cons p rest ih =>
    intro st
    simp only [List.map_cons, List.nodup_cons] at hnd
    rw [putAll_cons, putAll_cons, statePut_putAll _ _ _ hnd.1, statePut_statePut_same, ih hnd.2]

/-- After a sequence of writes with distinct keys every key written holds its value. -/
theorem stateGet_putAll (ps : List KV) (hnd : (ps.map Prod.fst).Nodup) :
    ∀ st, ∀ p ∈ ps, stateGet (putAll st ps) p.1 = some p.2 := by
  induction ps with
  | nil => intro st p hp; simp at hp
  | cons q rest ih =>
    intro st p hp
    simp only [List.map_cons, List.nodup_cons] at hnd
    rw [putAll_cons]
    rcases List.mem_cons.mp hp with h | h
    · subst h
      rw [← statePut_putAll _ _ _ hnd.1, stateGet_statePut_same]
    · exact ih hnd.2 _ p h

/-! ## The handlers and the seeded ledger -/

theorem queryTender_state (stub : ChaincodeStub) (args : List Bytes) :
    (queryTender stub args).2.state = stub.state := by
  unfold queryTender
  split_ifs with h
  · rfl
  · simp only [ChaincodeStub.GetState]
    cases stub.getErr (args.getD 0 []) with
    | some e => rfl
    | none =>
      simp only []
      cases stateGet stub.state (args.getD 0 []) <;> rfl

theorem recordTender_snd (stub : ChaincodeStub) (args : List Bytes) (h : args.length = 5) :
    (recordTender stub args).2 = (stub.PutState (args.getD 0 []) (Marshal
        { Type_ := args.getD 1 [], Size := args.getD 2 [], Timestamp := args.getD 3 [],
          Lots := args.getD 4 [] })).2 := by
  unfold recordTender
  rw [if_neg (by simp [h])]
  simp only []
  generalize stub.PutState _ _ = r
  obtain ⟨e, s⟩ := r
  cases e <;> rfl

theorem recordTender_mem (stub : ChaincodeStub) (args : List Bytes) (kv : KV)
    (h : kv ∈ (recordTender stub args).2.state) : kv ∈ stub.state ∨ IsTenderEncoding kv.2 := by
  by_cases hlen : args.length = 5
  · rw [recordTender_snd _ _ hlen] at h
    rcases putState_mem _ _ _ kv h with h2 | h2
    · exact Or.inr ⟨_, by rw [h2]⟩
    · exact Or.inl h2
  · unfold recordTender at h
    rw [if_pos hlen] at h
    exact Or.inl h

/-- Every entry of the world state after an invocation was there before or holds the encoding
of a `Tender`. -/
theorem invoke_mem (stub : ChaincodeStub) (function : Bytes) (args : List Bytes) (kv : KV)
    (h : kv ∈ (Invoke stub function args).2.state) : kv ∈ stub.state ∨ IsTenderEncoding kv.2 := by
  unfold Invoke at h
  split_ifs at h
  · rw [queryTender_state] at h; exact Or.inl h
  · exact initLedgerLoop_mem _ _ _ kv h
  · exact recordTender_mem _ _ kv h
  · rw [queryAllTenders_state] at h; exact Or.inl h
  · exact Or.inl h

theorem recordTender_ok (stub : ChaincodeStub) (k ty sz ts lots : Bytes)
    (hput : stub.putErr k
      (Marshal { Type_ := ty, Timestamp := ts, Size := sz, Lots := lots }) = none) :
    recordTender stub [k, ty, sz, ts, lots] =
      (Response.Success none,
        { stub with
          calls := stub.calls ++ [StubCall.PutState k
            (Marshal { Type_ := ty, Timestamp := ts, Size := sz, Lots := lots })],
          state := statePut k (Marshal { Type_ := ty, Timestamp := ts, Size := sz, Lots := lots })
            stub.state }) := by
  simp [recordTender, ChaincodeStub.PutState, hput]

theorem queryTender_found (stub : ChaincodeStub) (k v : Bytes) (hget : stub.getErr k = none)
    (h : stateGet stub.state k = some v) :
    (queryTender stub [k]).1 = Response.Success (some v) := by
  simp [queryTender, ChaincodeStub.GetState, hget, h]

theorem queryTender_missing (stub : ChaincodeStub) (k : Bytes)
    (h : stateGet stub.state k = none) :
    (queryTender stub [k]).1 = Response.Error (str "Could not locate tender") := by
  simp only [queryTender, ChaincodeStub.GetState, List.length_singleton, ne_eq,
    not_true_eq_false, if_false, List.getD_cons_zero]
  cases stub.getErr k with
  | some e => rfl
  | none => simp only [h]

theorem seedPuts_eq :
    seedPuts seedTenders 0 = List.zip seedKeys (seedTenders.map Marshal) := by decide!

theorem seedKeys_nodup : ((seedPuts seedTenders 0).map Prod.fst).Nodup := by decide!

theorem seeded_range :
    stateRange (str "0") (str "999") (putAll [] (seedPuts seedTenders 0)) =
      seededEntries.map (fun e => (e.1, Marshal e.2)) := by decide!

theorem seeded_facts :
    seededScan = arrayText (seededEntries.map (fun e => (e.1, Marshal e.2))) ∧
    seededEntries.length = 10 ∧
    seededEntries.Perm (List.zip seedKeys seedTenders) ∧
    seededEntries.map Prod.fst =
      [str "1", str "10", str "2", str "3", str "4", str "5", str "6", str "7", str "8", str "9"] ∧
    (seededEntries.map Prod.fst).Pairwise (fun a b => bytesLt a b = true) ∧
    (∀ e ∈ seededEntries, Unmarshal (Marshal e.2) = some e.2) ∧
    Valid seededScan = true := by
  refine ⟨?_, ?_, ?_, ?_, ?_, ?_, ?_⟩ <;> decide!

theorem mem_keys_iff (st : List KV) (k : Bytes) :
    k ∈ st.map Prod.fst ↔ (stateGet st k).isSome = true := by
  induction st with
  | nil => simp [stateGet]
  | cons kv rest ih =>
    obtain ⟨k0, v0⟩ := kv
    simp only [List.map_cons, List.mem_cons, stateGet]
    by_cases h : k0 = k
    · simp [h]
    · rw [if_neg h, ← ih]
      simp [Ne.symm h]

theorem mem_stateRange_keys (a b : Bytes) (st : List KV) (k : Bytes) :
    k ∈ (stateRange a b st).map Prod.fst ↔
      (stateGet st k).isSome = true ∧ bytesLt k a = false ∧ bytesLt k b = true := by
  rw [← mem_keys_iff]
  simp only [stateRange, List.mem_map, List.mem_filter, Bool.and_eq_true, Bool.not_eq_true']
  constructor
  · rintro ⟨kv, ⟨hmem, h1, h2⟩, rfl⟩
    exact ⟨⟨kv, hmem, rfl⟩, h1, h2⟩
  · rintro ⟨⟨kv, hmem, rfl⟩, h1, h2⟩
    exact ⟨kv, ⟨hmem, h1, h2⟩, rfl⟩

theorem queryAllTendersLoop_error (items : List (Except Bytes KV)) :
    ∀ (buffer : Bytes) (written : Bool) (calls : List StubCall),
      (∃ e, Except.error e ∈ items) →
      ∃ e, (queryAllTendersLoop items buffer written calls).1 = Except.error e := by
  induction items with
  | nil => intro _ _ _ ⟨e, he⟩; simp at he
  | cons item rest ih =>
    intro buffer written calls ⟨e, he⟩
    cases item with
    | error e1 => exact ⟨e1, rfl⟩
    | ok kv =>
      simp only [queryAllTendersLoop]
      apply ih
      rcases List.mem_cons.mp he with h | h
      · cases h
      · exact ⟨e, h⟩

theorem iterItems_error (nextErr : Nat → Option Bytes) (kvs : List KV) :
    ∀ (n m : Nat) (e : Bytes), n ≤ m → m < n + kvs.length → nextErr m = some e →
      Except.error e ∈ iterItems nextErr n kvs := by
  induction kvs with
  | nil => intro n m e h1 h2 _; simp at h2; omega
  | cons kv rest ih =>
    intro n m e h1 h2 he
    simp only [iterItems, List.mem_cons]
    by_cases hnm : n = m
    · left; rw [hnm, he]
    · right
      exact ih (n + 1) m e (by omega) (by simp at h2; omega) he

/-- The handlers other than `initLedger` answer an error when a call on the ledger fails. -/
theorem failure_surfaced_by_other_handlers (stub : ChaincodeStub) :
    (∀ k ty sz ts lots e,
      stub.putErr k (Marshal { Type_ := ty, Timestamp := ts, Size := sz, Lots := lots }) =
        some e →
      (recordTender stub [k, ty, sz, ts, lots]).1 =
        Response.Error (str "Failed to record Tender: " ++ k)) ∧
    (∀ k e, stub.getErr k = some e →
      (queryTender stub [k]).1 = Response.Error (str "Could not locate tender")) ∧
    (∀ e, stub.rangeErr = some e → (queryAllTenders stub).1 = Response.Error e) ∧
    (∀ m e, stub.rangeErr = none →
      m < (stateRange (str "0") (str "999") stub.state).length → stub.nextErr m = some e →
      ∃ e1, (queryAllTenders stub).1 = Response.Error e1) := by
  refine ⟨?_, ?_, ?_, ?_⟩
  · intro k ty sz ts lots e h
    simp [recordTender, ChaincodeStub.PutState, h]
  · intro k e h
    simp [queryTender, ChaincodeStub.GetState, h]
  · intro e h
    simp [queryAllTenders, ChaincodeStub.GetStateByRange, h]
  · intro m e hr hm he
    obtain ⟨e1, h1⟩ := queryAllTendersLoop_error
      (iterItems stub.nextErr 0 (stateRange (str "0") (str "999") stub.state)) (str "[") false
      (stub.calls ++ [StubCall.GetStateByRange (str "0") (str "999")])
      ⟨e, iterItems_error _ _ 0 m e (Nat.zero_le _) (by omega) he⟩
    refine ⟨e1, ?_⟩
    simp only [queryAllTenders, ChaincodeStub.GetStateByRange, hr]
    generalize queryAllTendersLoop _ _ _ _ = r at h1 ⊢
    obtain ⟨r1, r2⟩ := r
    simp only at h1
    subst h1
    rfl

theorem initLedger_state (stub : ChaincodeStub) (hput : ∀ k v, stub.putErr k v = none) :
    (initLedger stub).2.state = putAll stub.state (seedPuts seedTenders 0) :=
  initLedgerLoop_state _ _ _ hput

/-! ## Key order of the world state -/

theorem statePut_keys (k v : Bytes) (st : List KV) (x : Bytes)
    (h : x ∈ (statePut k v st).map Prod.fst) : x = k ∨ x ∈ st.map Prod.fst := by
  obtain ⟨kv, hkv, rfl⟩ := List.mem_map.mp h
  rcases mem_statePut k v st kv hkv with h1 | h1
  · left; rw [h1]
  · right; exact List.mem_map.mpr ⟨kv, h1, rfl⟩

/-- A write keeps the world state in key order. -/
theorem statePut_sorted (k v : Bytes) (st : List KV) (h : KeysSorted st) :
    KeysSorted (statePut k v st) := by
  induction st with
  | nil => simp [KeysSorted, statePut]
  | cons kv rest ih =>
    obtain ⟨k0, v0⟩ := kv
    unfold KeysSorted at h ih ⊢
    simp only [List.map_cons, List.pairwise_cons] at h
    rcases bytesLt_cases k k0 with a | a | ⟨a, an, ag⟩
    · rw [statePut_cons_lt a]
      simp only [List.map_cons, List.pairwise_cons, List.mem_cons]
      refine ⟨?_, h.1, h.2⟩
      rintro x (rfl | hx)
      · exact a
      · exact bytesLt_trans _ _ _ a (h.1 x hx)
    · subst a
      rw [statePut_cons_eq]
      simp only [List.map_cons, List.pairwise_cons]
      exact h
    · rw [statePut_cons_gt a an]
      simp only [List.map_cons, List.pairwise_cons]
      refine ⟨?_, ih h.2⟩
      intro x hx
      rcases statePut_keys k v rest x hx with rfl | hx
      · exact ag
      · exact h.1 x hx

/-- The entries of a range of a world state in key order are in key order. -/
theorem stateRange_sorted (a b : Bytes) (st : List KV) (h : KeysSorted st) :
    KeysSorted (stateRange a b st) := by
  unfold KeysSorted stateRange at *
  exact List.Pairwise.sublist (List.Sublist.map _ (List.filter_sublist _)) h

/-- Every invocation keeps the world state in key order. -/
theorem invoke_sorted (stub : ChaincodeStub) (function : Bytes) (args : List Bytes)
    (h : KeysSorted stub.state) : KeysSorted (Invoke stub function args).2.state := by
  have hput : ∀ (s : ChaincodeStub) (k v : Bytes), KeysSorted s.state →
      KeysSorted (s.PutState k v).2.state := by
    intro s k v hs
    unfold ChaincodeStub.PutState
    cases s.putErr k v with
    | some e => exact hs
    | none => exact statePut_sorted k v _ hs
  have hloop : ∀ (ts : List Tender) (i : Nat) (s : ChaincodeStub), KeysSorted s.state →
      KeysSorted (initLedgerLoop ts i s).state := by
    intro ts
    induction ts with
    | nil => intro i s hs; exact hs
    | cons t rest ih => intro i s hs; exact ih _ _ (hput s _ _ hs)
  unfold Invoke
  split_ifs
  · rw [queryTender_state]; exact h
  · exact hloop _ _ _ h
  · by_cases hlen : args.length = 5
    · rw [recordTender_snd _ _ hlen]; exact hput _ _ _ h
    · rw [recordTender, if_pos hlen]; exact h
  · rw [queryAllTenders_state]; exact h
  · exact h

/-! # The properties of the contract -/

/-- C1 (as amended). For every stub, key `k` and four field values: when the `PutState` of
`recordTender` with args `[k, type, size, timestamp, lots]` succeeds and the later `GetState`
does not fail, `recordTender` answers success and `queryTender` with args `[k]` on the
resulting stub answers success with a payload that decodes to a `Tender`. Its four fields are
the values written as `encoding/json` keeps them, every byte that is not part of a
well-formed UTF-8 rune replaced by U+FFFD; they equal exactly the values written when these
are valid UTF-8, and only then. -/
theorem recordTender_queryTender_roundtrip (stub : ChaincodeStub) (k ty sz ts lots : Bytes)
    (hput : stub.putErr k
      (Marshal { Type_ := ty, Timestamp := ts, Size := sz, Lots := lots }) = none)
    (hget : stub.getErr k = none) :
    (recordTender stub [k, ty, sz, ts, lots]).1 = Response.Success none ∧
    ∃ payload,
      (queryTender (recordTender stub [k, ty, sz, ts, lots]).2 [k]).1 =
        Response.Success (some payload) ∧
      Unmarshal payload =
        some { Type_ := coerceUTF8 ty, Timestamp := coerceUTF8 ts, Size := coerceUTF8 sz,
               Lots := coerceUTF8 lots } ∧
      (Unmarshal payload = some { Type_ := ty, Timestamp := ts, Size := sz, Lots := lots } ↔
        (ValidString ty = true ∧ ValidString ts = true ∧ ValidString sz = true ∧
          ValidString lots = true)) := by
  rw [recordTender_ok stub k ty sz ts lots hput]
  exact ⟨rfl, _, queryTender_found _ k _ hget (stateGet_statePut_same _ _ _),
    unmarshal_marshal_coerce _, unmarshal_marshal_iff _⟩

/-- Witness of `recordTender_queryTender_roundtrip` on the empty ledger, with a field that is
not ASCII. -/
theorem recordTender_queryTender_roundtrip_witness :
    (recordTender emptyStub [str "11", str "Work", str "10", str "1504054225", str "é"]).1 =
        Response.Success none ∧
    ∃ payload,
      (queryTender
          (recordTender emptyStub [str "11", str "Work", str "10", str "1504054225", str "é"]).2
          [str "11"]).1 = Response.Success (some payload) ∧
      Unmarshal payload =
        some { Type_ := coerceUTF8 (str "Work"), Timestamp := coerceUTF8 (str "1504054225"),
               Size := coerceUTF8 (str "10"), Lots := coerceUTF8 (str "é") } ∧
      (Unmarshal payload =
          some { Type_ := str "Work", Timestamp := str "1504054225", Size := str "10",
                 Lots := str "é" } ↔
        (ValidString (str "Work") = true ∧ ValidString (str "1504054225") = true ∧
          ValidString (str "10") = true ∧ ValidString (str "é") = true)) :=
  recordTender_queryTender_roundtrip emptyStub (str "11") (str "Work") (str "10")
    (str "1504054225") (str "é") rfl rfl

/-- C1 (counterexample). With the field `type` the single byte `0xFF`, which is not valid
UTF-8, the write succeeds and the read succeeds, but the payload holds the escape of U+FFFD
and decodes to a record whose `type` is the three bytes of U+FFFD, not the byte written. -/
theorem recordTender_queryTender_invalid_utf8 :
    (recordTender emptyStub [str "11", [0xFF], str "10", str "1504054225", str "100"]).1 =
        Response.Success none ∧
    (queryTender
        (recordTender emptyStub [str "11", [0xFF], str "10", str "1504054225", str "100"]).2
        [str "11"]).1 =
      Response.Success (some (str
        "\x7b\"type\":\"\\ufffd\",\"timestamp\":\"1504054225\",\"size\":\"10\",\"lots\":\"100\"\x7d")) ∧
    Unmarshal (str
        "\x7b\"type\":\"\\ufffd\",\"timestamp\":\"1504054225\",\"size\":\"10\",\"lots\":\"100\"\x7d") =
      some { Type_ := [0xEF, 0xBF, 0xBD], Timestamp := str "1504054225", Size := str "10",
             Lots := str "100" } ∧
    Unmarshal (str
        "\x7b\"type\":\"\\ufffd\",\"timestamp\":\"1504054225\",\"size\":\"10\",\"lots\":\"100\"\x7d") ≠
      some { Type_ := [0xFF], Timestamp := str "1504054225", Size := str "10",
             Lots := str "100" } ∧
    ValidString [0xFF] = false := by
  decide!

/-- C2. On a stub with the empty world state on which no call fails, `initLedger` answers
success and `queryAllTenders` then answers success with the payload `seededScan`: the array
of exactly the ten seeded pairs, each `Record` the encoding of the literal record seeded at
its key (and decoding back to it), in ascending order of the keys, which for the ledger is
the bytewise order of the key strings (`1`, `10`, `2`, ..., `9`); the payload is one
well-formed JSON text. -/
theorem initLedger_queryAllTenders (stub : ChaincodeStub) (hempty : stub.state = [])
    (hput : ∀ k v, stub.putErr k v = none) (hrange : stub.rangeErr = none)
    (hnext : ∀ n, stub.nextErr n = none) :
    (initLedger stub).1 = Response.Success none ∧
    (queryAllTenders (initLedger stub).2).1 = Response.Success (some seededScan) ∧
    seededScan = arrayText (seededEntries.map (fun e => (e.1, Marshal e.2))) ∧
    seededEntries.length = 10 ∧
    seededEntries.Perm (List.zip seedKeys seedTenders) ∧
    seededEntries.map Prod.fst =
      [str "1", str "10", str "2", str "3", str "4", str "5", str "6", str "7", str "8", str "9"] ∧
    (seededEntries.map Prod.fst).Pairwise (fun a b => bytesLt a b = true) ∧
    (∀ e ∈ seededEntries, Unmarshal (Marshal e.2) = some e.2) ∧
    Valid seededScan = true := by
  refine ⟨rfl, ?_, seeded_facts⟩
  have hst : (initLedger stub).2.state = putAll [] (seedPuts seedTenders 0) := by
    rw [← hempty]
    exact initLedgerLoop_state _ _ _ hput
  rw [queryAllTenders_response _
      (by rw [← hrange]; exact initLedgerLoop_rangeErr _ _ _)
      (by intro n; rw [← hnext n]; exact congrFun (initLedgerLoop_nextErr _ _ _) n),
    hst, seeded_range, seeded_facts.1]

/-- Witness of `initLedger_queryAllTenders` on the empty stub. -/
theorem initLedger_queryAllTenders_witness :
    emptyStub.state = [] ∧
    (queryAllTenders (initLedger emptyStub).2).1 = Response.Success (some seededScan) :=
  ⟨rfl, (initLedger_queryAllTenders emptyStub rfl (fun _ _ => rfl) rfl (fun _ => rfl)).2.1⟩

/-- C3. For every stub and argument list, `recordTender` with other than 5 arguments and
`queryTender` with other than 1 argument answer the argument-count error and return the stub
as it was: no call is logged and the world state is the same. -/
theorem argument_count_validation (stub : ChaincodeStub) (args : List Bytes) :
    (args.length ≠ 5 → recordTender stub args =
      (Response.Error (str "Incorrect number of arguments. Expecting 5"), stub)) ∧
    (args.length ≠ 1 → queryTender stub args =
      (Response.Error (str "Incorrect number of arguments. Expecting 1"), stub)) := by
  constructor
  · intro h; rw [recordTender, if_pos h]
  · intro h; rw [queryTender, if_pos h]

/-- Witness of `argument_count_validation`: four arguments for `recordTender`, two for
`queryTender`. -/
theorem argument_count_validation_witness :
    recordTender emptyStub [str "11", str "Work", str "10", str "1504054225"] =
      (Response.Error (str "Incorrect number of arguments. Expecting 5"), emptyStub) ∧
    queryTender emptyStub [str "1", str "2"] =
      (Response.Error (str "Incorrect number of arguments. Expecting 1"), emptyStub) :=
  ⟨(argument_count_validation emptyStub _).1 (by decide),
   (argument_count_validation emptyStub _).2 (by decide)⟩

/-- C4. For every stub and key `k`, `queryTender` with args `[k]` answers the error
`Could not locate tender` when the world state holds no value at `k` (so for a key never
written), answers success with exactly the stored bytes when it holds a value and `GetState`
returns it, and leaves the world state as it was in every case. A failing `GetState` returns
no value and is answered like an absent key. -/
theorem queryTender_point_read (stub : ChaincodeStub) (k : Bytes) :
    (stateGet stub.state k = none →
      (queryTender stub [k]).1 = Response.Error (str "Could not locate tender")) ∧
    (∀ v, stateGet stub.state k = some v → stub.getErr k = none →
      (queryTender stub [k]).1 = Response.Success (some v)) ∧
    (∀ e, stub.getErr k = some e →
      (queryTender stub [k]).1 = Response.Error (str "Could not locate tender")) ∧
    (queryTender stub [k]).2.state = stub.state ∧
    (queryTender emptyStub [k]).1 = Response.Error (str "Could not locate tender") :=
  ⟨queryTender_missing stub k, fun v hv hget => queryTender_found stub k v hget hv,
   fun e he => by simp [queryTender, ChaincodeStub.GetState, he],
   queryTender_state stub [k], queryTender_missing emptyStub k rfl⟩

/-- Witness of `queryTender_point_read`: a key never written, and the key `3` after seeding. -/
theorem queryTender_point_read_witness :
    (queryTender emptyStub [str "3"]).1 = Response.Error (str "Could not locate tender") ∧
    (queryTender (initLedger emptyStub).2 [str "3"]).1 =
      Response.Success (some (str
        "\x7b\"type\":\"Work\",\"timestamp\":\"1493517025\",\"size\":\"10\",\"lots\":\"100\"\x7d")) :=
  ⟨(queryTender_point_read emptyStub (str "3")).1 rfl,
   (queryTender_point_read (initLedger emptyStub).2 (str "3")).2.1 _ (by decide!) rfl⟩

/-- C5. For every stub, argument list and function name other than the four handled names,
`Invoke` answers the error `Invalid Smart Contract function name.` and returns the stub as it
was. -/
theorem invoke_unknown_function (stub : ChaincodeStub) (function : Bytes) (args : List Bytes)
    (h1 : function ≠ str "queryTender") (h2 : function ≠ str "initLedger")
    (h3 : function ≠ str "recordTender") (h4 : function ≠ str "queryAllTenders") :
    Invoke stub function args =
      (Response.Error (str "Invalid Smart Contract function name."), stub) := by
  rw [Invoke, if_neg h1, if_neg h2, if_neg h3, if_neg h4]

/-- Witness of `invoke_unknown_function`: the names `deleteTender` and
`changeTenderHolder`. -/
theorem invoke_unknown_function_witness :
    Invoke (initLedger emptyStub).2 (str "deleteTender") [str "1"] =
      (Response.Error (str "Invalid Smart Contract function name."), (initLedger emptyStub).2) ∧
    Invoke (initLedger emptyStub).2 (str "changeTenderHolder") [str "1", str "Alice"] =
      (Response.Error (str "Invalid Smart Contract function name."), (initLedger emptyStub).2) :=
  ⟨invoke_unknown_function (initLedger emptyStub).2 (str "deleteTender") [str "1"]
      (by decide) (by decide) (by decide) (by decide),
   invoke_unknown_function (initLedger emptyStub).2 (str "changeTenderHolder")
      [str "1", str "Alice"] (by decide) (by decide) (by decide) (by decide)⟩

/-- C6. For every stub on which no `PutState` fails, running `initLedger` twice leaves the
same world state as running it once, and in that state each of the keys `1` to `10` (the
decimal string of the 1-based index) holds the encoding of the literal record of that index,
whatever the key held before. -/
theorem initLedger_idempotent (stub : ChaincodeStub) (hput : ∀ k v, stub.putErr k v = none) :
    (initLedger (initLedger stub).2).2.state = (initLedger stub).2.state ∧
    (∀ p ∈ List.zip seedKeys seedTenders,
      stateGet (initLedger stub).2.state p.1 = some (Marshal p.2)) ∧
    seedKeys = (List.range 10).map (fun i => Itoa (Int.ofNat i + 1)) := by
  have hput1 : ∀ k v, (initLedger stub).2.putErr k v = none := by
    intro k v
    rw [show (initLedger stub).2.putErr = stub.putErr from initLedgerLoop_putErr _ _ _]
    exact hput k v
  refine ⟨?_, ?_, by decide!⟩
  · rw [initLedger_state _ hput1, initLedger_state _ hput, putAll_putAll _ seedKeys_nodup]
  · intro p hp
    rw [initLedger_state _ hput]
    have hmem : (p.1, Marshal p.2) ∈ seedPuts seedTenders 0 := by
      rw [seedPuts_eq, List.zip_map_right]
      exact List.mem_map.mpr ⟨p, hp, rfl⟩
    exact stateGet_putAll _ seedKeys_nodup _ _ hmem

/-- Witness of `initLedger_idempotent`: a ledger that already holds other text at the key
`1`. -/
theorem initLedger_idempotent_witness :
    (initLedger (initLedger { emptyStub with state := [(str "1", str "old")] }).2).2.state =
      (initLedger { emptyStub with state := [(str "1", str "old")] }).2.state ∧
    stateGet (initLedger { emptyStub with state := [(str "1", str "old")] }).2.state (str "1") =
      some (Marshal { Type_ := str "Service", Size := str "10", Timestamp := str "1504054225",
                      Lots := str "100" }) :=
  ⟨(initLedger_idempotent { emptyStub with state := [(str "1", str "old")] }
      (fun _ _ => rfl)).1,
   (initLedger_idempotent { emptyStub with state := [(str "1", str "old")] }
      (fun _ _ => rfl)).2.1
      (str "1", { Type_ := str "Service", Size := str "10", Timestamp := str "1504054225",
                  Lots := str "100" }) (by decide!)⟩

/-- C7 (failing input). A key of the range that holds a double quote: `recordTender` stores
a well-formed record at it, and `queryAllTenders` answers success with a payload in which the
key is written between quotes without escaping; the payload is not well-formed JSON. -/
theorem queryAllTenders_key_not_escaped :
    (queryAllTenders
        (recordTender emptyStub [str "0\"", str "Work", str "10", str "1504054225",
          str "100"]).2).1 =
      Response.Success (some (str
        ("[\x7b\"Key\":\"0\"\", \"Record\":" ++
          "\x7b\"type\":\"Work\",\"timestamp\":\"1504054225\",\"size\":\"10\",\"lots\":\"100\"\x7d\x7d]"))) ∧
    Valid (str
        "\x7b\"type\":\"Work\",\"timestamp\":\"1504054225\",\"size\":\"10\",\"lots\":\"100\"\x7d") =
      true ∧
    Valid (str
        ("[\x7b\"Key\":\"0\"\", \"Record\":" ++
          "\x7b\"type\":\"Work\",\"timestamp\":\"1504054225\",\"size\":\"10\",\"lots\":\"100\"\x7d\x7d]")) =
      false := by
  decide!

/-- C8 (failing input). On a stub whose every `PutState` fails, `Invoke` of `initLedger`
makes ten failing calls of `PutState`, leaves the world state empty and still answers
success, where `recordTender` on the same stub answers an error. -/
theorem initLedger_drops_put_error :
    (failingStub.PutState (str "1")
        (Marshal { Type_ := str "Service", Size := str "10", Timestamp := str "1504054225",
                   Lots := str "100" })).1 =
      some (str "ledger unavailable") ∧
    (Invoke failingStub (str "initLedger") []).1 = Response.Success none ∧
    (Invoke failingStub (str "initLedger") []).2.state = [] ∧
    (Invoke failingStub (str "initLedger") []).2.calls.length = 10 ∧
    (Invoke failingStub (str "recordTender")
        [str "1", str "Service", str "10", str "1504054225", str "100"]).1 =
      Response.Error (str "Failed to record Tender: 1") := by
  decide!

/-- C9. For every stub on which neither the range query nor a step of the iteration fails,
`queryAllTenders` answers success with the array of the entries of the world state whose key
lies in the fixed range, so that a key `k` is listed if and only if the world state holds a
value at `k` and `"0" ≤ k < "999"` in the bytewise order. A record that `recordTender` writes
at a key at or beyond `"999"` is returned by `queryTender` and is not listed by the scan. -/
theorem queryAllTenders_fixed_bounds (stub : ChaincodeStub) (hrange : stub.rangeErr = none)
    (hnext : ∀ n, stub.nextErr n = none) :
    (queryAllTenders stub).1 =
      Response.Success (some (arrayText (stateRange (str "0") (str "999") stub.state))) ∧
    (∀ k, k ∈ (stateRange (str "0") (str "999") stub.state).map Prod.fst ↔
      ((stateGet stub.state k).isSome = true ∧
        bytesLt k (str "0") = false ∧ bytesLt k (str "999") = true)) ∧
    (∀ k ty sz ts lots,
      bytesLt k (str "999") = false →
      stub.putErr k (Marshal { Type_ := ty, Timestamp := ts, Size := sz, Lots := lots }) = none →
      stub.getErr k = none →
      (queryTender (recordTender stub [k, ty, sz, ts, lots]).2 [k]).1 =
        Response.Success
          (some (Marshal { Type_ := ty, Timestamp := ts, Size := sz, Lots := lots })) ∧
      (queryAllTenders (recordTender stub [k, ty, sz, ts, lots]).2).1 =
        Response.Success (some (arrayText (stateRange (str "0") (str "999")
          (recordTender stub [k, ty, sz, ts, lots]).2.state))) ∧
      k ∉ (stateRange (str "0") (str "999")
        (recordTender stub [k, ty, sz, ts, lots]).2.state).map Prod.fst) := by
  refine ⟨queryAllTenders_response stub hrange hnext, mem_stateRange_keys _ _ _, ?_⟩
  intro k ty sz ts lots hk hput hget
  rw [recordTender_ok stub k ty sz ts lots hput]
  refine ⟨queryTender_found _ k _ hget (stateGet_statePut_same _ _ _),
    queryAllTenders_response _ hrange hnext, ?_⟩
  intro hmem
  have h := ((mem_stateRange_keys _ _ _ k).mp hmem).2.2
  rw [hk] at h
  exact absurd h (by simp)

/-- Witness of `queryAllTenders_fixed_bounds`: after seeding, a record written at the key
`A1`. -/
theorem queryAllTenders_fixed_bounds_witness :
    (queryTender
        (recordTender (initLedger emptyStub).2
          [str "A1", str "Work", str "10", str "1504054225", str "100"]).2 [str "A1"]).1 =
      Response.Success (some (Marshal
        { Type_ := str "Work", Timestamp := str "1504054225", Size := str "10",
          Lots := str "100" })) ∧
    str "A1" ∉ (stateRange (str "0") (str "999")
      (recordTender (initLedger emptyStub).2
        [str "A1", str "Work", str "10", str "1504054225", str "100"]).2.state).map Prod.fst :=
  ⟨((queryAllTenders_fixed_bounds (initLedger emptyStub).2 rfl (fun _ => rfl)).2.2
      (str "A1") (str "Work") (str "10") (str "1504054225") (str "100")
      (by decide) rfl rfl).1,
   ((queryAllTenders_fixed_bounds (initLedger emptyStub).2 rfl (fun _ => rfl)).2.2
      (str "A1") (str "Work") (str "10") (str "1504054225") (str "100")
      (by decide) rfl rfl).2.2⟩

/-- C10 (as amended). If every value of the world state is the encoding of a `Tender` (the
JSON object with the four string members), then so is every value of the world state after
any invocation, with any function name and any arguments; every value an invocation adds is
such an encoding. The encoding of a record decodes to the record of its fields as
`encoding/json` keeps them, so it decodes back to the record that was encoded when the four
fields are valid UTF-8, as those of the seeded records are, and only then. -/
theorem stored_record_invariant (stub : ChaincodeStub) (function : Bytes) (args : List Bytes)
    (hinv : ∀ kv ∈ stub.state, IsTenderEncoding kv.2) :
    (∀ kv ∈ (Invoke stub function args).2.state, IsTenderEncoding kv.2) ∧
    (∀ kv ∈ (Invoke stub function args).2.state, kv ∈ stub.state ∨ IsTenderEncoding kv.2) ∧
    (∀ t ∈ seedTenders, Unmarshal (Marshal t) = some t) ∧
    (∀ t : Tender, Unmarshal (Marshal t) =
      some { Type_ := coerceUTF8 t.Type_, Timestamp := coerceUTF8 t.Timestamp,
             Size := coerceUTF8 t.Size, Lots := coerceUTF8 t.Lots }) ∧
    (∀ t : Tender, Unmarshal (Marshal t) = some t ↔
      (ValidString t.Type_ = true ∧ ValidString t.Timestamp = true ∧
        ValidString t.Size = true ∧ ValidString t.Lots = true)) := by
  refine ⟨?_, invoke_mem stub function args, by decide!, unmarshal_marshal_coerce,
    unmarshal_marshal_iff⟩
  intro kv hkv
  rcases invoke_mem stub function args kv hkv with h | h
  · exact hinv kv h
  · exact h

/-- Witness of `stored_record_invariant`: `recordTender` on the seeded ledger. -/
theorem stored_record_invariant_witness :
    (∀ kv ∈ (initLedger emptyStub).2.state, IsTenderEncoding kv.2) ∧
    (∀ kv ∈ (Invoke (initLedger emptyStub).2 (str "recordTender")
        [str "11", str "Work", str "10", str "1504054225", str "100"]).2.state,
      IsTenderEncoding kv.2) :=
  have h : ∀ kv ∈ (initLedger emptyStub).2.state, IsTenderEncoding kv.2 := fun kv hkv =>
    (initLedgerLoop_mem _ _ _ kv hkv).elim (fun h => absurd h (List.not_mem_nil kv)) id
  ⟨h, (stored_record_invariant (initLedger emptyStub).2 (str "recordTender")
    [str "11", str "Work", str "10", str "1504054225", str "100"] h).1⟩

/-- C10 (counterexample). `Invoke` of `recordTender` with the field `timestamp` the single
byte `0x80`, which is not valid UTF-8: the value written has the four members, but it decodes
to a record whose `timestamp` is the three bytes of U+FFFD, not to the record that was
encoded. -/
theorem recordTender_value_not_decoded_back :
    (Invoke emptyStub (str "recordTender")
        [str "11", str "Work", str "10", [0x80], str "100"]).2.state =
      [(str "11", Marshal
        { Type_ := str "Work", Timestamp := [0x80], Size := str "10", Lots := str "100" })] ∧
    Marshal { Type_ := str "Work", Timestamp := [0x80], Size := str "10", Lots := str "100" } =
      str "\x7b\"type\":\"Work\",\"timestamp\":\"\\ufffd\",\"size\":\"10\",\"lots\":\"100\"\x7d" ∧
    Unmarshal (Marshal
        { Type_ := str "Work", Timestamp := [0x80], Size := str "10", Lots := str "100" }) =
      some { Type_ := str "Work", Timestamp := [0xEF, 0xBF, 0xBD], Size := str "10",
             Lots := str "100" } ∧
    Unmarshal (Marshal
        { Type_ := str "Work", Timestamp := [0x80], Size := str "10", Lots := str "100" }) ≠
      some { Type_ := str "Work", Timestamp := [0x80], Size := str "10", Lots := str "100" } := by
  decide!

end DTen
